import Mathlib

/-!
Verification development for the video-gallery service.

The Go sources are shallowly embedded: Go strings become lists of bytes
(natural numbers below 256 for well-formed inputs), Go maps become
insertion-ordered association lists, the storage collaborator becomes an
explicit signing oracle, and the per-video pipeline steps of the bulk
thumbnail job become an explicit outcome oracle.  All definitions are
executable so that concrete runs can be settled with decide.

Byte-level caveat: Unicode handling that the Go standard library performs
on multi-byte UTF-8 sequences (strings.TrimSpace beyond the ASCII space
set, strings.Map rune decoding) is modelled at the byte level, which
agrees with the source on ASCII data.
-/

set_option maxRecDepth 20000

/-- A Go string modelled as its byte sequence. -/
abbrev GoStr := List Nat

/-- Bytes of an ASCII Lean string literal. -/
def gs (s : String) : GoStr := s.data.map Char.toNat

/-- unicode.IsSpace on a rune obtained from a single byte, as used by
naturalLess (covers the Latin-1 range: ASCII spaces plus NEL and NBSP). -/
def isSpaceB (b : Nat) : Bool :=
  b = 9 || b = 10 || b = 11 || b = 12 || b = 13 || b = 32 || b = 133 || b = 160

/-- unicode.IsDigit on a rune obtained from a single byte. -/
def isDigitB (b : Nat) : Bool := 48 ≤ b && b ≤ 57

/-- ASCII letters and digits, the character class of the extension regex. -/
def isAlnumB (b : Nat) : Bool :=
  (48 ≤ b && b ≤ 57) || (65 ≤ b && b ≤ 90) || (97 ≤ b && b ≤ 122)

/-- strings.Split(s, "/") : split on the slash byte, keeping empty parts. -/
def splitSlash : GoStr → List GoStr
  | [] => [[]]
  | b :: rest =>
    let r := splitSlash rest
    if b = 47 then [] :: r
    else
      match r with
      | [] => [[b]]
      | h :: t => (b :: h) :: t

/-- The extension regex \.[a-zA-Z0-9]+$ applied as ReplaceAllString(s, ""):
drop the suffix that starts at the last dot when everything after that dot
is a non-empty alphanumeric run, otherwise leave the name unchanged. -/
def stripExt (f : GoStr) : GoStr :=
  let r := f.reverse
  let ds := r.takeWhile isAlnumB
  if ds.isEmpty then f
  else
    match r.drop ds.length with
    | 46 :: t => t.reverse
    | _ => f

/-- filepath.Ext: the suffix starting at the final dot of the final
path element (empty when that element has no dot). -/
def pathExt (p : GoStr) : GoStr :=
  let r := p.reverse
  let pre := r.takeWhile (fun b => decide (b ≠ 46) && decide (b ≠ 47))
  match r.drop pre.length with
  | 46 :: _ => 46 :: pre.reverse
  | _ => []

/-- strings.HasSuffix. -/
def hasSuffixB (s e : GoStr) : Bool := e.isSuffixOf s

/-- The recognized video extensions of the catalog builder. -/
def videoExtensions : List GoStr :=
  [gs (".mp4"), gs (".m4v"), gs (".webm"), gs (".mov"), gs (".avi")]

/-- The recognized image (thumbnail) extensions of the catalog builder. -/
def imageExtensions : List GoStr :=
  [gs (".jpg"), gs (".jpeg"), gs (".png")]

/-- Whether a filename carries a recognized video extension. -/
def isVideoName (f : GoStr) : Bool := videoExtensions.any (hasSuffixB f)

/-- Whether a filename carries a recognized image extension. -/
def isImageName (f : GoStr) : Bool := imageExtensions.any (hasSuffixB f)

/-- strconv.Atoi on a digit run: the numeric value, clamped at the largest
int64 as ParseInt does on range errors (the error itself is discarded by
naturalLess). -/
def atoiClamp (ds : GoStr) : Nat :=
  min (ds.foldl (fun acc b => acc * 10 + (b - 48)) 0) (2 ^ 63 - 1)

/-- One round of the naturalLess two-pointer loop, with explicit fuel so the
definition stays structural.  Returns some when the loop decides inside its
body, none when it falls through to the final length comparison. -/
def naturalLessLoop : Nat → GoStr → GoStr → Option Bool
  | 0, _, _ => none
  | fuel + 1, s1, s2 =>
    let t1 := s1.dropWhile isSpaceB
    let t2 := s2.dropWhile isSpaceB
    match t1, t2 with
    | [], _ => none
    | _, [] => none
    | a :: r1, b :: r2 =>
      if isDigitB a && isDigitB b then
        let d1 := t1.takeWhile isDigitB
        let d2 := t2.takeWhile isDigitB
        let n1 := atoiClamp d1
        let n2 := atoiClamp d2
        if n1 ≠ n2 then some (decide (n1 < n2))
        else naturalLessLoop fuel (t1.dropWhile isDigitB) (t2.dropWhile isDigitB)
      else
        if a ≠ b then some (decide (a < b))
        else naturalLessLoop fuel r1 r2

/-- naturalLess: compares strings treating digit runs as numbers; when the
loop exhausts one string without deciding, the original byte lengths break
the tie. -/
def naturalLess (s1 s2 : GoStr) : Bool :=
  (naturalLessLoop (s1.length + s2.length + 1) s1 s2).getD (decide (s1.length < s2.length))

/-- Insertion step of the sort model for sort.Slice with a less comparator. -/
def insertBy (c : α → α → Bool) (x : α) : List α → List α
  | [] => [x]
  | y :: ys => if c x y then x :: y :: ys else y :: insertBy c x ys

/-- Deterministic sort model for sort.Slice: insertion sort on the given
less comparator (it agrees with the Go sort whenever the comparator is a
strict weak order, which the development tracks by explicit hypotheses). -/
def sortBy (c : α → α → Bool) : List α → List α
  | [] => []
  | x :: l => insertBy c x (sortBy c l)

/-- ASCII whitespace trimmed by strings.TrimSpace (byte-level model). -/
def isTrimSpaceB (b : Nat) : Bool :=
  b = 9 || b = 10 || b = 11 || b = 12 || b = 13 || b = 32

/-- strings.TrimSpace, byte-level. -/
def trimSpaceB (s : GoStr) : GoStr :=
  ((s.dropWhile isTrimSpaceB).reverse.dropWhile isTrimSpaceB).reverse

/-- cleanMovieTitle: truncate at the first opening parenthesis, then at the
first opening bracket, then trim surrounding whitespace. -/
def cleanMovieTitle (title : GoStr) : GoStr :=
  let t1 := title.takeWhile (fun b => decide (b ≠ 40))
  let t2 := t1.takeWhile (fun b => decide (b ≠ 91))
  trimSpaceB t2

/-- Decimal rendering of a Nat as Go fmt does for %d. -/
def decStr (n : Nat) : GoStr := gs (Nat.repr n)

/-- Go fmt %02d. -/
def pad2 (n : Nat) : GoStr := if n < 10 then 48 :: decStr n else decStr n

/-- Go fmt %03d. -/
def pad3 (n : Nat) : GoStr :=
  if n < 10 then 48 :: 48 :: decStr n
  else if n < 100 then 48 :: decStr n
  else decStr n

/-- The ffmpeg seek timestamp built by createThumbnailWithFFmpeg in the
progress-enabled thumbnail service: full HH:MM:SS.mmm rendering. -/
def ffmpegTimeString (timeMs : Nat) : GoStr :=
  let totalSeconds := timeMs / 1000
  let milliseconds := timeMs % 1000
  let hours := totalSeconds / 3600
  let minutes := (totalSeconds % 3600) / 60
  let seconds := totalSeconds % 60
  pad2 hours ++ (58 :: pad2 minutes) ++ (58 :: pad2 seconds) ++ (46 :: pad3 milliseconds)

/-- The ffmpeg seek timestamp built by createThumbnailWithFFmpeg in
pkg/services/thumbnail_service.go: a hard-coded hour-less 00:00:SS.mmm
rendering of the whole second count. -/
def ffmpegTimeStringLegacy (timeMs : Nat) : GoStr :=
  let seconds := timeMs / 1000
  let milliseconds := timeMs % 1000
  gs ("00:00:") ++ pad2 seconds ++ (46 :: pad3 milliseconds)

/-- Truncation to a 32-bit word. -/
def w32 (n : Nat) : Nat := n % 4294967296

/-- 32-bit right rotation. -/
def rotr (n x : Nat) : Nat := x / 2 ^ n + (x % 2 ^ n) * 2 ^ (32 - n)

/-- The SHA-256 working state. -/
structure Sha256State where
  a : Nat
  b : Nat
  c : Nat
  d : Nat
  e : Nat
  f : Nat
  g : Nat
  h : Nat

/-- The SHA-256 initial hash value. -/
def sha256Init : Sha256State :=
  ⟨1779033703, 3144134277, 1013904242, 2773480762,
   1359893119, 2600822924, 528734635, 1541459225⟩

/-- The SHA-256 round constants. -/
def sha256K : List Nat :=
  [1116352408, 1899447441, 3049323471, 3921009573, 961987163, 1508970993,
   2453635748, 2870763221, 3624381080, 310598401, 607225278, 1426881987,
   1925078388, 2162078206, 2614888103, 3248222580, 3835390401, 4022224774,
   264347078, 604807628, 770255983, 1249150122, 1555081692, 1996064986,
   2554220882, 2821834349, 2952996808, 3210313671, 3336571891, 3584528711,
   113926993, 338241895, 666307205, 773529912, 1294757372, 1396182291,
   1695183700, 1986661051, 2177026350, 2456956037, 2730485921, 2820302411,
   3259730800, 3345764771, 3516065817, 3600352804, 4094571909, 275423344,
   430227734, 506948616, 659060556, 883997877, 958139571, 1322822218,
   1537002063, 1747873779, 1955562222, 2024104815, 2227730452, 2361852424,
   2428436474, 2756734187, 3204031479, 3329325298]

/-- Big-endian 32-bit words of a 64-byte block (structural, 4 bytes at a time). -/
def beWords : GoStr → List Nat
  | b0 :: b1 :: b2 :: b3 :: rest =>
    (((b0 * 256 + b1) * 256 + b2) * 256 + b3) :: beWords rest
  | _ => []

/-- Message-schedule extension from 16 to 64 words. -/
def sha256Extend : Nat → List Nat → List Nat
  | 0, acc => acc
  | n + 1, acc =>
    let i := acc.length
    let w15 := acc.getD (i - 15) 0
    let w2 := acc.getD (i - 2) 0
    let w16 := acc.getD (i - 16) 0
    let w7 := acc.getD (i - 7) 0
    let s0 := (rotr 7 w15) ^^^ (rotr 18 w15) ^^^ (w15 / 2 ^ 3)
    let s1 := (rotr 17 w2) ^^^ (rotr 19 w2) ^^^ (w2 / 2 ^ 10)
    sha256Extend n (acc ++ [w32 (w16 + s0 + w7 + s1)])

/-- One SHA-256 compression round. -/
def sha256Round (st : Sha256State) (kw : Nat) : Sha256State :=
  let s1 := (rotr 6 st.e) ^^^ (rotr 11 st.e) ^^^ (rotr 25 st.e)
  let ch := (Nat.land st.e st.f) ^^^ (Nat.land (4294967295 - st.e) st.g)
  let temp1 := w32 (st.h + s1 + ch + kw)
  let s0 := (rotr 2 st.a) ^^^ (rotr 13 st.a) ^^^ (rotr 22 st.a)
  let maj := (Nat.land st.a st.b) ^^^ (Nat.land st.a st.c) ^^^ (Nat.land st.b st.c)
  let temp2 := w32 (s0 + maj)
  ⟨w32 (temp1 + temp2), st.a, st.b, st.c, w32 (st.d + temp1), st.e, st.f, st.g⟩

/-- Compression of one 64-byte block into the running state. -/
def sha256Block (st : Sha256State) (block : GoStr) : Sha256State :=
  let ws := sha256Extend 48 (beWords block)
  let r := (sha256K.zip ws).foldl (fun s kw => sha256Round s (w32 (kw.1 + kw.2))) st
  ⟨w32 (st.a + r.a), w32 (st.b + r.b), w32 (st.c + r.c), w32 (st.d + r.d),
   w32 (st.e + r.e), w32 (st.f + r.f), w32 (st.g + r.g), w32 (st.h + r.h)⟩

/-- Fold the padded message, 64 bytes at a time (fuel makes it structural). -/
def sha256Blocks : Nat → Sha256State → GoStr → Sha256State
  | 0, st, _ => st
  | _, st, [] => st
  | fuel + 1, st, msg => sha256Blocks fuel (sha256Block st (msg.take 64)) (msg.drop 64)

/-- SHA-256 padding: 0x80, zeros to 56 mod 64, then the 64-bit bit length. -/
def sha256Pad (msg : GoStr) : GoStr :=
  let len := msg.length
  let zeros := (64 + 56 - (len + 1) % 64) % 64
  let bitLen := len * 8
  msg ++ [128] ++ List.replicate zeros 0 ++
    [bitLen / 2 ^ 56 % 256, bitLen / 2 ^ 48 % 256, bitLen / 2 ^ 40 % 256,
     bitLen / 2 ^ 32 % 256, bitLen / 2 ^ 24 % 256, bitLen / 2 ^ 16 % 256,
     bitLen / 2 ^ 8 % 256, bitLen % 256]

/-- Big-endian bytes of a 32-bit word. -/
def wordBytes (w : Nat) : GoStr :=
  [w / 2 ^ 24 % 256, w / 2 ^ 16 % 256, w / 2 ^ 8 % 256, w % 256]

/-- crypto/sha256: the 32-byte digest of a byte string. -/
def sha256 (msg : GoStr) : GoStr :=
  let p := sha256Pad msg
  let st := sha256Blocks (p.length / 64 + 1) sha256Init p
  wordBytes st.a ++ wordBytes st.b ++ wordBytes st.c ++ wordBytes st.d ++
    wordBytes st.e ++ wordBytes st.f ++ wordBytes st.g ++ wordBytes st.h

/-- The base64url alphabet (RFC 4648 URL encoding), as bytes. -/
def b64Alphabet : GoStr :=
  gs ("ABCDEFGHIJKLMNOPQRSTUVWXYZabcdefghijklmnopqrstuvwxyz0123456789-_")

/-- base64.URLEncoding.EncodeToString over bytes (with = padding). -/
def b64Encode : GoStr → GoStr
  | [] => []
  | [b0] =>
    [b64Alphabet.getD (b0 / 4) 65, b64Alphabet.getD (b0 % 4 * 16) 65, 61, 61]
  | [b0, b1] =>
    [b64Alphabet.getD (b0 / 4) 65, b64Alphabet.getD (b0 % 4 * 16 + b1 / 16) 65,
     b64Alphabet.getD (b1 % 16 * 4) 65, 61]
  | b0 :: b1 :: b2 :: rest =>
    b64Alphabet.getD (b0 / 4) 65 ::
    b64Alphabet.getD (b0 % 4 * 16 + b1 / 16) 65 ::
    b64Alphabet.getD (b1 % 16 * 4 + b2 / 64) 65 ::
    b64Alphabet.getD (b2 % 64) 65 :: b64Encode rest

/-- Lowercase hex digits. -/
def hexDigits : GoStr := gs ("0123456789abcdef")

/-- encoding/hex.EncodeToString over bytes. -/
def hexEncode : GoStr → GoStr
  | [] => []
  | b :: rest => hexDigits.getD (b / 16) 48 :: hexDigits.getD (b % 16) 48 :: hexEncode rest

/-- The four-character gallery identifier: the first 4 base64url characters
of the SHA-256 of the gallery name concatenated with the server secret, as
computed inline by GetGalleriesInternal. -/
def galleryStubHash (name secret : GoStr) : GoStr :=
  (b64Encode (sha256 (name ++ secret))).take 4

/-- The Stub field stored on a Gallery: "/gallery/" plus the hash characters. -/
def galleryStubField (name secret : GoStr) : GoStr :=
  gs ("/gallery/") ++ galleryStubHash name secret

/-- The Video record of the catalog (models.Video plus the two storage-path
fields set by GetVideosInternal; only name, url and thumbnail are serialized
in the feed). -/
structure Video where
  name : GoStr
  category : GoStr
  gallery : GoStr
  url : GoStr := []
  videoPath : GoStr := []
  thumbnail : Option GoStr := none
  thumbnailPath : GoStr := []
deriving DecidableEq, Repr

/-- A Gallery: a named group of videos with its hash-derived stub. -/
structure Gallery where
  name : GoStr
  category : GoStr
  stub : GoStr
  videos : List Video
deriving DecidableEq, Repr

/-- A Category: a named group of galleries; its stub equals its name. -/
structure Category where
  name : GoStr
  stub : GoStr
  galleries : List Gallery
deriving DecidableEq, Repr

/-- Insertion-ordered association list standing in for a Go map: an update
replaces in place, a new key is appended. -/
def setA (m : List (GoStr × α)) (k : GoStr) (v : α) : List (GoStr × α) :=
  match m with
  | [] => [(k, v)]
  | (k', v') :: t => if k' = k then (k, v) :: t else (k', v') :: setA t k v

/-- Lookup in the association list. -/
def lookupA (m : List (GoStr × α)) (k : GoStr) : Option α :=
  match m with
  | [] => none
  | (k', v') :: t => if k' = k then some v' else lookupA t k

/-- The values of the association list, in insertion order (the model of
converting a Go map to a slice; Go iterates in unspecified order, which the
development treats by proving or refuting order insensitivity explicitly). -/
def valuesA (m : List (GoStr × α)) : List α := m.map Prod.snd

/-- The keys of the association list in insertion order. -/
def keysA (m : List (GoStr × α)) : List GoStr := m.map Prod.fst

/-- The per-object record update of GetVideosInternal: create the record on
first sight of a base name (taking category and gallery from that object),
then set the video fields if the filename has a video extension and the
thumbnail fields if it has an image extension. -/
def updVideo (cur : Option Video) (category gallery filename key url : GoStr) : Video :=
  let base := stripExt filename
  let v0 := cur.getD { name := base, category := category, gallery := gallery }
  let v1 := if isVideoName filename then { v0 with url := url, videoPath := key } else v0
  let v2 := if isImageName filename then { v1 with thumbnail := some url, thumbnailPath := key } else v1
  v2

/-- One iteration of the GetVideosInternal object loop over the merge map:
keys without exactly 3 slash-separated segments or with an empty filename
are skipped, as are objects whose URL signing fails. -/
def stepVideo (sign : GoStr → Option GoStr) (m : List (GoStr × Video)) (key : GoStr) :
    List (GoStr × Video) :=
  match splitSlash key with
  | [category, gallery, filename] =>
    if filename = [] then m
    else
      match sign key with
      | none => m
      | some url => setA m (stripExt filename) (updVideo (lookupA m (stripExt filename)) category gallery filename key url)
  | _ => m

/-- The merge map built from the bucket listing. -/
def videosMap (sign : GoStr → Option GoStr) (keys : List GoStr) : List (GoStr × Video) :=
  keys.foldl (stepVideo sign) []

/-- Comparator used by the final sort of GetVideosInternal. -/
def videoLess (a b : Video) : Bool := naturalLess a.name b.name

/-- GetVideosInternal on a fixed bucket listing and signing oracle: build the
merge map, take its values and sort them by name with naturalLess. -/
def getVideosInternal (sign : GoStr → Option GoStr) (keys : List GoStr) : List Video :=
  sortBy videoLess (valuesA (videosMap sign keys))

/-- One iteration of the GetGalleriesInternal grouping loop: append the video
to an existing gallery, or create the gallery with its stub computed from the
gallery name and the server secret. -/
def stepGallery (secret : GoStr) (m : List (GoStr × Gallery)) (v : Video) :
    List (GoStr × Gallery) :=
  match lookupA m v.gallery with
  | some g => setA m v.gallery { g with videos := g.videos ++ [v] }
  | none =>
    setA m v.gallery
      { name := v.gallery, category := v.category,
        stub := galleryStubField v.gallery secret, videos := [v] }

/-- Grouping of a video list into galleries, followed by the natural sort on
gallery names. -/
def buildGalleries (secret : GoStr) (videos : List Video) : List Gallery :=
  sortBy (fun a b => naturalLess a.name b.name) (valuesA (videos.foldl (stepGallery secret) []))

/-- GetGalleriesInternal over a bucket listing. -/
def getGalleriesInternal (sign : GoStr → Option GoStr) (secret : GoStr) (keys : List GoStr) :
    List Gallery :=
  buildGalleries secret (getVideosInternal sign keys)

/-- One iteration of the GetCategoriesInternal grouping loop. -/
def stepCategory (m : List (GoStr × Category)) (g : Gallery) : List (GoStr × Category) :=
  match lookupA m g.category with
  | some c => setA m g.category { c with galleries := c.galleries ++ [g] }
  | none => setA m g.category { name := g.category, stub := g.category, galleries := [g] }

/-- Grouping of galleries into categories; GetCategoriesInternal applies no
sort to the resulting category slice. -/
def buildCategories (galleries : List Gallery) : List Category :=
  valuesA (galleries.foldl stepCategory [])

/-- GetCategoriesInternal over a bucket listing. -/
def getCategoriesInternal (sign : GoStr → Option GoStr) (secret : GoStr) (keys : List GoStr) :
    List Category :=
  buildCategories (getGalleriesInternal sign secret keys)

/-- Go map iteration made explicit: read the entries of the association list
through a given key order.  Go randomizes map iteration, so a run of the
range loop that converts a map to a slice is modelled by an arbitrary
permutation of the key set. -/
def valuesIter (m : List (GoStr × α)) (ord : List GoStr) : List α :=
  ord.filterMap (lookupA m)

/-- GetVideosInternal with the videos map iterated in the order vord before
the final sort (vord ranges over the permutations of the map's key set). -/
def getVideosIter (sign : GoStr → Option GoStr) (keys : List GoStr) (vord : List GoStr) :
    List Video :=
  sortBy videoLess (valuesIter (videosMap sign keys) vord)

/-- The comparator of the gallery sort in GetGalleriesInternal. -/
def galleryLess (a b : Gallery) : Bool := naturalLess a.name b.name

/-- The galleries map of GetGalleriesInternal: the grouping loop run over the
sorted video slice. -/
def galleriesMapOf (secret : GoStr) (videos : List Video) : List (GoStr × Gallery) :=
  videos.foldl (stepGallery secret) []

/-- GetGalleriesInternal with the iteration orders of the videos map and of
the galleries map made explicit; the gallery slice is sorted by name after
the map is read out. -/
def getGalleriesIter (sign : GoStr → Option GoStr) (secret : GoStr) (keys : List GoStr)
    (vord gord : List GoStr) : List Gallery :=
  sortBy galleryLess (valuesIter (galleriesMapOf secret (getVideosIter sign keys vord)) gord)

/-- The categories map of GetCategoriesInternal. -/
def categoriesMapOf (galleries : List Gallery) : List (GoStr × Category) :=
  galleries.foldl stepCategory []

/-- GetCategoriesInternal with explicit iteration orders: the category slice
is emitted in raw map iteration order, with no sort applied. -/
def getCategoriesIter (sign : GoStr → Option GoStr) (secret : GoStr) (keys : List GoStr)
    (vord gord cord : List GoStr) : List Category :=
  valuesIter (categoriesMapOf (getGalleriesIter sign secret keys vord gord)) cord

/-- A default gallery used only to express lookups as total functions. -/
def dfltGallery : Gallery := { name := [], category := [], stub := [], videos := [] }

/-- The catalog cache state: at most one entry holding the snapshot and its
expiration instant (go-cache item under the "videos" key). -/
structure CacheState where
  entry : Option (List Video × Nat)
deriving DecidableEq, Repr

/-- videoCache.Flush(): the invalidation performed after every thumbnail
mutation drops the entry unconditionally. -/
def cacheFlush (_ : CacheState) : CacheState := ⟨none⟩

/-- The default go-cache expiration configured by InitService, in
nanoseconds (5 minutes). -/
def defaultTTL : Nat := 5 * 60 * 1000000000

/-- The caching discipline of GetVideosInternal: return the cached snapshot
when an entry exists and now does not exceed its expiration (go-cache treats
an item as expired when now is strictly past it); otherwise run the builder,
store its result with a fresh expiry, and return it.  The Bool reports
whether the builder ran. -/
def getCatalogCached (build : List Video) (ttl : Nat) (st : CacheState) (now : Nat) :
    List Video × CacheState × Bool :=
  match st.entry with
  | some (v, exp) =>
    if exp < now then (build, ⟨some (build, now + ttl)⟩, true)
    else (v, st, false)
  | none => (build, ⟨some (build, now + ttl)⟩, true)

/-- Outcome of one per-video run of steps 4-7 of the thumbnail pipeline
(download, ffmpeg, validate, upload), abstracted as an oracle result. -/
inductive StepRes where
  | ok
  | downloadErr
  | createErr
  | validateErr
  | uploadErr
deriving DecidableEq, Repr

/-- Aggregate result of BulkGenerateThumbnails in the model: the returned
counters, whether a fatal error was returned, the video keys attempted, and
how many times the catalog cache was flushed. -/
structure BulkOutcome where
  processed : Nat
  errors : Nat
  fatal : Bool
  attempted : List GoStr
  flushes : Nat
deriving DecidableEq, Repr

/-- The filename segment of a participating object key: exactly three
slash-separated segments with a non-empty third. -/
def objFilename (k : GoStr) : Option GoStr :=
  match splitSlash k with
  | [_, _, f] => if f = [] then none else some f
  | _ => none

/-- The object key with its filepath.Ext suffix removed, the base key used by
both passes of BulkGenerateThumbnails. -/
def extBaseKey (o : GoStr) : GoStr := o.take (o.length - (pathExt o).length)

/-- Pass 1 of BulkGenerateThumbnails: the base keys of every existing
3-segment image object. -/
def thumbBaseKeys (objs : List GoStr) : List GoStr :=
  objs.filterMap fun o =>
    match objFilename o with
    | some f => if isImageName f then some (extBaseKey o) else none
    | none => none

/-- Pass 2 of BulkGenerateThumbnails as a fold over the listing: skip
non-participating keys and non-videos; for a video needing a thumbnail
(absent base key, or force), run the per-video steps; success increments the
processed counter, any step failure increments the error counter and the
loop continues. -/
def bulkPass2 (thumbs : List GoStr) (step : GoStr → StepRes) (force : Bool)
    (objs : List GoStr) : Nat × Nat × List GoStr :=
  objs.foldl
    (fun acc o =>
      match objFilename o with
      | none => acc
      | some f =>
        if isVideoName f then
          if force || !(thumbs.contains (extBaseKey o)) then
            match step o with
            | .ok => (acc.1 + 1, acc.2.1, acc.2.2 ++ [o])
            | _ => (acc.1, acc.2.1 + 1, acc.2.2 ++ [o])
          else acc
        else acc)
    (0, 0, [])

/-- BulkGenerateThumbnails: the ffmpeg availability probe and the bucket
listing are the up-front failure points (each returns a fatal error before
any processing); otherwise both passes run over the fixed listing and the
cache is flushed exactly once at the end.  The timeMs offset is forwarded to
the per-video steps, which the oracle abstracts. -/
def bulkGenerateThumbnails (ffmpegOk : Bool) (listing : Except Unit (List GoStr))
    (step : GoStr → StepRes) (timeMs : Nat) (force : Bool) : BulkOutcome :=
  if !ffmpegOk then ⟨0, 0, true, [], 0⟩
  else
    match listing, timeMs with
    | .error _, _ => ⟨0, 0, true, [], 0⟩
    | .ok objs, _ =>
      let r := bulkPass2 (thumbBaseKeys objs) step force objs
      ⟨r.1, r.2.1, false, r.2.2, 1⟩

/-- filepath.Base: the last element of the path after trailing slashes are
removed ("." for the empty path, "/" when everything is a slash). -/
def filepathBase (p : GoStr) : GoStr :=
  if p = [] then [46]
  else
    let q := p.reverse.dropWhile (fun b => decide (b = 47))
    if q = [] then [47]
    else (q.takeWhile (fun b => decide (b ≠ 47))).reverse

/-- The characters replaced by underscores in shortened safe filenames. -/
def badFileChars : GoStr := gs ("<>:\"/\\|?*")

/-- getSafeFilename: cut the path at the first question mark, take its base
name; names longer than 200 bytes are replaced by a sanitized 20-byte
prefix, a dash, the first 8 SHA-256 bytes of the full path in hex, and the
name's filepath.Ext suffix. -/
def getSafeFilename (path : GoStr) : GoStr :=
  let p := path.takeWhile (fun b => decide (b ≠ 63))
  let baseName := filepathBase p
  if 200 < baseName.length then
    let hash := sha256 p
    let ext := pathExt baseName
    let shortName0 := if 20 < baseName.length then baseName.take 20 else baseName
    let shortName := shortName0.map (fun b => if badFileChars.contains b then 95 else b)
    shortName ++ [45] ++ hexEncode (hash.take 8) ++ ext
  else baseName

/-- encoding/json escaping of one byte (with the default HTML escaping of
angle brackets and ampersands). -/
def jsonEscapeByte (b : Nat) : GoStr :=
  if b = 34 then [92, 34]
  else if b = 92 then [92, 92]
  else if b = 10 then [92, 110]
  else if b = 13 then [92, 114]
  else if b = 9 then [92, 116]
  else if b = 60 || b = 62 || b = 38 || b < 32 then
    gs ("\\u00") ++ [hexDigits.getD (b / 16) 48, hexDigits.getD (b % 16) 48]
  else [b]

/-- A JSON string literal for a byte string. -/
def jsonStr (s : GoStr) : GoStr := 34 :: ((s.map jsonEscapeByte).flatten ++ [34])

/-- Comma-separated concatenation. -/
def commaJoin : List GoStr → GoStr
  | [] => []
  | [x] => x
  | x :: xs => x ++ (44 :: commaJoin xs)

/-- json.Marshal of a models.Video: the serialized fields in struct order are
name and url (category and gallery carry the "-" tag), and thumbnail is a
pointer with omitempty, so it is dropped when absent. -/
def marshalVideo (v : Video) : GoStr :=
  let fields :=
    [jsonStr (gs ("name")) ++ (58 :: jsonStr v.name),
     jsonStr (gs ("url")) ++ (58 :: jsonStr v.url)] ++
    (match v.thumbnail with
     | some t => [jsonStr (gs ("thumbnail")) ++ (58 :: jsonStr t)]
     | none => [])
  123 :: (commaJoin fields ++ [125])

/-- json.Marshal of a models.Gallery: name, category and the videos array
(the stub carries the "-" tag and is omitted). -/
def marshalGallery (g : Gallery) : GoStr :=
  123 :: (commaJoin
    [jsonStr (gs ("name")) ++ (58 :: jsonStr g.name),
     jsonStr (gs ("category")) ++ (58 :: jsonStr g.category),
     jsonStr (gs ("videos")) ++ (58 :: (91 :: (commaJoin (g.videos.map marshalVideo) ++ [93])))]
    ++ [125])

/-- FeedHandler's response body: json.Marshal of services.GetGalleries(). -/
def feedBody (sign : GoStr → Option GoStr) (secret : GoStr) (keys : List GoStr) : GoStr :=
  91 :: (commaJoin ((getGalleriesInternal sign secret keys).map marshalGallery) ++ [93])

/-- Tail of a rendered JSON array, from already-rendered elements. -/
def specArrTail : List GoStr → GoStr
  | [] => [93]
  | x :: xs => 44 :: (x ++ specArrTail xs)

/-- A rendered JSON array from already-rendered elements. -/
def specJsonArr : List GoStr → GoStr
  | [] => gs ("[]")
  | x :: xs => 91 :: (x ++ specArrTail xs)

/-- Modelled from the spec: a feed video object with name, url and a
nullable thumbnail, as the spec's feed description words it. -/
def specVideoJsonC (v : Video) : GoStr :=
  gs ("\x7b\"name\":") ++ jsonStr v.name ++ gs (",\"url\":") ++ jsonStr v.url ++
    gs (",\"thumbnail\":") ++
    (match v.thumbnail with
     | some t => jsonStr t
     | none => gs ("null")) ++ gs ("\x7d")

/-- Modelled from the spec: a feed gallery object carrying name and its
videos array, per the spec's feed description. -/
def specGalleryJsonC (g : Gallery) : GoStr :=
  gs ("\x7b\"name\":") ++ jsonStr g.name ++ gs (",\"videos\":") ++
    specJsonArr (g.videos.map specVideoJsonC) ++ gs ("\x7d")

/-- Modelled from the spec: a feed Category object with name, stub and its
galleries array, per the spec's feed description. -/
def specCategoryJson (c : Category) : GoStr :=
  gs ("\x7b\"name\":") ++ jsonStr c.name ++ gs (",\"stub\":") ++ jsonStr c.stub ++
    gs (",\"galleries\":") ++ specJsonArr (c.galleries.map specGalleryJsonC) ++ gs ("\x7d")

/-- Modelled from the spec: the feed body that the claim describes, a JSON
array of Category objects. -/
def specCategoryFeed (sign : GoStr → Option GoStr) (secret : GoStr) (keys : List GoStr) : GoStr :=
  specJsonArr ((getCategoriesInternal sign secret keys).map specCategoryJson)

/-- A feed video object as the code serializes it: name, url, and the
thumbnail key present only when a thumbnail exists. -/
def specVideoJsonG (v : Video) : GoStr :=
  gs ("\x7b\"name\":") ++ jsonStr v.name ++ gs (",\"url\":") ++ jsonStr v.url ++
    (match v.thumbnail with
     | some t => gs (",\"thumbnail\":") ++ jsonStr t
     | none => []) ++ gs ("\x7d")

/-- A feed gallery object as the code serializes it: name, category and the
videos array (no stub key). -/
def specGalleryJsonG (g : Gallery) : GoStr :=
  gs ("\x7b\"name\":") ++ jsonStr g.name ++ gs (",\"category\":") ++ jsonStr g.category ++
    gs (",\"videos\":") ++ specJsonArr (g.videos.map specVideoJsonG) ++ gs ("\x7d")

/-- The feed body restated at the spec level as a JSON array of gallery
objects. -/
def specGalleryFeed (sign : GoStr → Option GoStr) (secret : GoStr) (keys : List GoStr) : GoStr :=
  specJsonArr ((getGalleriesInternal sign secret keys).map specGalleryJsonG)

/-- A concrete signing oracle used by witnesses and counterexamples. -/
def csign : GoStr → Option GoStr := fun k => some (gs ("https://signed/") ++ k)

/-- C8: the natural ordering sorts embedded digit runs numerically, so the
names Video 2, Video 10, Video 1 come out as Video 1, Video 2, Video 10. -/
theorem naturalSort_video_names :
    sortBy naturalLess [gs ("Video 2"), gs ("Video 10"), gs ("Video 1")] =
      [gs ("Video 1"), gs ("Video 2"), gs ("Video 10")] := by
  decide

/-- C4: at a one-hour offset the progress-enabled service formats the full
HH:MM:SS.mmm timestamp 01:00:00.000, while the formatter in
pkg/services/thumbnail_service.go hard-codes the hour-less form and hands
ffmpeg 00:00:3600.000, whose seconds field is not below 60. -/
theorem ffmpegTime_oneHour_divergence :
    ffmpegTimeString 3600000 = gs ("01:00:00.000") ∧
      ffmpegTimeStringLegacy 3600000 = gs ("00:00:3600.000") ∧
      ffmpegTimeStringLegacy 3600000 ≠ ffmpegTimeString 3600000 := by
  refine ⟨by decide, by decide, by decide⟩

theorem mem_takeWhile_both {p : Nat → Bool} {l : GoStr} {x : Nat}
    (h : x ∈ l.takeWhile p) : x ∈ l ∧ p x = true := by
  induction l with
  | nil => simp [List.takeWhile] at h
  | cons a t ih =>
    by_cases hpa : p a = true
    · simp only [List.takeWhile, hpa] at h
      rcases List.mem_cons.mp h with rfl | h
      · exact ⟨List.mem_cons_self _ _, hpa⟩
      · exact ⟨List.mem_cons_of_mem _ (ih h).1, (ih h).2⟩
    · have hpa' : p a = false := by simpa using hpa
      simp only [List.takeWhile, hpa'] at h
      exact absurd h (List.not_mem_nil x)

theorem takeWhile_eq_self_of_all {p : Nat → Bool} {l : GoStr}
    (h : ∀ x ∈ l, p x = true) : l.takeWhile p = l := by
  induction l with
  | nil => rfl
  | cons a t ih =>
    simp only [List.takeWhile, h a (List.mem_cons_self a t)]
    exact congrArg (a :: ·) (ih fun x hx => h x (List.mem_cons_of_mem a hx))

theorem dropWhile_suffixB (p : Nat → Bool) (l : GoStr) : ∃ r, r ++ l.dropWhile p = l := by
  induction l with
  | nil => exact ⟨[], rfl⟩
  | cons a t ih =>
    by_cases hpa : p a = true
    · obtain ⟨r, hr⟩ := ih
      exact ⟨a :: r, by simp [List.dropWhile, hpa, hr]⟩
    · exact ⟨[], by simp [List.dropWhile, hpa]⟩

theorem mem_dropWhileB {p : Nat → Bool} {l : GoStr} {x : Nat}
    (h : x ∈ l.dropWhile p) : x ∈ l := by
  obtain ⟨r, hr⟩ := dropWhile_suffixB p l
  rw [← hr]
  exact List.mem_append_right r h

theorem dropWhile_idemB (p : Nat → Bool) (l : GoStr) :
    (l.dropWhile p).dropWhile p = l.dropWhile p := by
  induction l with
  | nil => rfl
  | cons a t ih =>
    by_cases hpa : p a = true
    · simp only [List.dropWhile, hpa]
      exact ih
    · have hpa' : p a = false := by simpa using hpa
      simp only [List.dropWhile, hpa']

theorem dropWhile_head_falseB {p : Nat → Bool} {l : GoStr} {a : Nat} {t : GoStr}
    (h : l.dropWhile p = a :: t) : p a = false := by
  induction l with
  | nil => exact absurd h (by simp [List.dropWhile])
  | cons b s ih =>
    by_cases hpb : p b = true
    · exact ih (by simpa only [List.dropWhile, hpb] using h)
    · have hpb' : p b = false := by simpa using hpb
      simp only [List.dropWhile, hpb'] at h
      rw [← ((List.cons.injEq ..).mp h).1]
      exact hpb'

theorem dropWhile_eq_self_of_headB {p : Nat → Bool} {l : GoStr}
    (h : ∀ a t, l = a :: t → p a = false) : l.dropWhile p = l := by
  cases l with
  | nil => rfl
  | cons a t => simp [List.dropWhile, h a t rfl]

theorem mem_trimSpaceB {s : GoStr} {x : Nat} (h : x ∈ trimSpaceB s) : x ∈ s := by
  unfold trimSpaceB at h
  rw [List.mem_reverse] at h
  have h1 := mem_dropWhileB h
  rw [List.mem_reverse] at h1
  exact mem_dropWhileB h1

theorem trimSpaceB_head {s : GoStr} {a : Nat} {t : GoStr}
    (h : trimSpaceB s = a :: t) : isTrimSpaceB a = false := by
  unfold trimSpaceB at h
  set u := s.dropWhile isTrimSpaceB with hu
  have hd : u.reverse.dropWhile isTrimSpaceB = (a :: t).reverse := by
    rw [← h, List.reverse_reverse]
  obtain ⟨r, hr⟩ := dropWhile_suffixB isTrimSpaceB u.reverse
  have hru : u = (u.reverse.dropWhile isTrimSpaceB).reverse ++ r.reverse := by
    rw [← List.reverse_append, hr, List.reverse_reverse]
  rw [hd, List.reverse_reverse] at hru
  cases hcase : u with
  | nil =>
    rw [hcase] at hru
    exact absurd hru.symm (by simp)
  | cons b v =>
    have hb : isTrimSpaceB b = false := dropWhile_head_falseB (p := isTrimSpaceB) (hu ▸ hcase)
    rw [hcase] at hru
    have hba : b = a := by
      have h2 := hru
      simp only [List.cons_append] at h2
      exact ((List.cons.injEq ..).mp h2).1
    rw [← hba]
    exact hb

theorem trimSpaceB_last {s : GoStr} {a : Nat} {t : GoStr}
    (h : (trimSpaceB s).reverse = a :: t) : isTrimSpaceB a = false := by
  unfold trimSpaceB at h
  rw [List.reverse_reverse] at h
  exact dropWhile_head_falseB h

theorem trimSpaceB_idem (s : GoStr) : trimSpaceB (trimSpaceB s) = trimSpaceB s := by
  have hL : (trimSpaceB s).dropWhile isTrimSpaceB = trimSpaceB s :=
    dropWhile_eq_self_of_headB fun a t ht => trimSpaceB_head ht
  have hR : (trimSpaceB s).reverse.dropWhile isTrimSpaceB = (trimSpaceB s).reverse :=
    dropWhile_eq_self_of_headB fun a t ht => trimSpaceB_last (s := s) ht
  show (((trimSpaceB s).dropWhile isTrimSpaceB).reverse.dropWhile isTrimSpaceB).reverse =
    trimSpaceB s
  rw [hL, hR, List.reverse_reverse]

/-- Whether a byte string starts and ends with non-whitespace. -/
def noEdgeSpace (l : GoStr) : Bool :=
  (match l.head? with
   | some b => !(isTrimSpaceB b)
   | none => true) &&
  (match l.getLast? with
   | some b => !(isTrimSpaceB b)
   | none => true)

theorem mem_cleanMovieTitle {t : GoStr} {x : Nat} (h : x ∈ cleanMovieTitle t) :
    x ≠ 40 ∧ x ≠ 91 := by
  unfold cleanMovieTitle at h
  have h2 := mem_trimSpaceB h
  have h91 := (mem_takeWhile_both h2).2
  have h1 := (mem_takeWhile_both h2).1
  have h40 := (mem_takeWhile_both h1).2
  simp only [decide_eq_true_eq] at h91 h40
  exact ⟨h40, h91⟩

theorem cleanMovieTitle_eq (s : GoStr) :
    cleanMovieTitle s =
      trimSpaceB ((s.takeWhile (fun b => decide (b ≠ 40))).takeWhile
        (fun b => decide (b ≠ 91))) := rfl

/-- C10: cleanMovieTitle is idempotent; its output contains no opening
parenthesis or bracket and carries no leading or trailing whitespace. -/
theorem cleanMovieTitle_idempotent (t : GoStr) :
    cleanMovieTitle (cleanMovieTitle t) = cleanMovieTitle t ∧
      40 ∉ cleanMovieTitle t ∧ 91 ∉ cleanMovieTitle t ∧
      noEdgeSpace (cleanMovieTitle t) = true := by
  refine ⟨?_, fun h => (mem_cleanMovieTitle h).1 rfl, fun h => (mem_cleanMovieTitle h).2 rfl, ?_⟩
  · rw [cleanMovieTitle_eq (cleanMovieTitle t)]
    rw [takeWhile_eq_self_of_all (p := fun b => decide (b ≠ 40)) (l := cleanMovieTitle t)
      (fun x hx => by simpa using (mem_cleanMovieTitle hx).1)]
    rw [takeWhile_eq_self_of_all (p := fun b => decide (b ≠ 91)) (l := cleanMovieTitle t)
      (fun x hx => by simpa using (mem_cleanMovieTitle hx).2)]
    rw [cleanMovieTitle_eq t]
    exact trimSpaceB_idem _
  · cases hcl : cleanMovieTitle t with
    | nil => rfl
    | cons a t' =>
      have h1 : isTrimSpaceB a = false := by
        refine trimSpaceB_head (s := (t.takeWhile (fun b => decide (b ≠ 40))).takeWhile
          (fun b => decide (b ≠ 91))) (a := a) (t := t') ?_
        rw [← cleanMovieTitle_eq t]
        exact hcl
      cases hrev : (a :: t').reverse with
      | nil => exact absurd hrev (by simp)
      | cons b r =>
        have h2 : isTrimSpaceB b = false := by
          refine trimSpaceB_last (s := (t.takeWhile (fun b => decide (b ≠ 40))).takeWhile
            (fun b => decide (b ≠ 91))) (a := b) (t := r) ?_
          rw [← cleanMovieTitle_eq t, hcl]
          exact hrev
        have h3 : (a :: t').getLast? = some b := by
          rw [← List.head?_reverse, hrev]
          rfl
        unfold noEdgeSpace
        rw [h3]
        simp [h1, h2]

theorem dropWhile_all_falseB {p : Nat → Bool} {l : GoStr} (h : ∀ x ∈ l, p x = false) :
    l.dropWhile p = l :=
  dropWhile_eq_self_of_headB fun a t ht => h a (ht ▸ List.mem_cons_self a t)

theorem takeWhile_append_allB {p : Nat → Bool} {xs : GoStr} {b : Nat} {ys : GoStr}
    (hall : ∀ x ∈ xs, p x = true) (hb : p b = false) : (xs ++ b :: ys).takeWhile p = xs := by
  induction xs with
  | nil => simp [List.takeWhile, hb]
  | cons a t ih =>
    simp only [List.cons_append, List.takeWhile, hall a (List.mem_cons_self a t)]
    exact congrArg (a :: ·) (ih fun x hx => hall x (List.mem_cons_of_mem a hx))

theorem sha256_length (msg : GoStr) : (sha256 msg).length = 32 := by
  simp [sha256, wordBytes]

theorem hexEncode_length (l : GoStr) : (hexEncode l).length = 2 * l.length := by
  induction l with
  | nil => rfl
  | cons b t ih => simp [hexEncode, ih]; omega

theorem filepathBase_of_noslash {p : GoStr} (hne : p ≠ []) (h : ∀ x ∈ p, x ≠ 47) :
    filepathBase p = p := by
  simp only [filepathBase, if_neg hne]
  rw [dropWhile_all_falseB (fun x hx => by
    simp only [decide_eq_false_iff_not]
    exact h x (List.mem_reverse.mp hx))]
  rw [if_neg (fun hrev => hne (List.reverse_eq_nil_iff.mp hrev))]
  rw [takeWhile_eq_self_of_all (fun x hx => by
    simp only [decide_eq_true_eq]
    exact h x (List.mem_reverse.mp hx))]
  exact List.reverse_reverse p

theorem getSafeFilename_long (p : GoStr)
    (h : 200 < (filepathBase (p.takeWhile (fun b => decide (b ≠ 63)))).length) :
    getSafeFilename p =
      ((filepathBase (p.takeWhile (fun b => decide (b ≠ 63)))).take 20).map
          (fun b => if badFileChars.contains b then 95 else b) ++
        45 :: (hexEncode ((sha256 (p.takeWhile (fun b => decide (b ≠ 63)))).take 8) ++
          pathExt (filepathBase (p.takeWhile (fun b => decide (b ≠ 63))))) := by
  simp only [getSafeFilename, if_pos h, if_pos (by omega : 20 <
    (filepathBase (p.takeWhile (fun b => decide (b ≠ 63)))).length)]
  simp [List.append_assoc]

/-- C9 (amended): when the base name of the question-mark-cut path exceeds
200 bytes, getSafeFilename returns the sanitized 20-byte prefix, a dash, 16
hex characters of the path hash, and the name's extension, so its length is
exactly 37 plus the length of that extension (and is therefore not bounded
by any constant independent of the extension). -/
theorem getSafeFilename_long_bound (p : GoStr)
    (h : 200 < (filepathBase (p.takeWhile (fun b => decide (b ≠ 63)))).length) :
    (getSafeFilename p).length =
      37 + (pathExt (filepathBase (p.takeWhile (fun b => decide (b ≠ 63))))).length ∧
    getSafeFilename p =
      ((filepathBase (p.takeWhile (fun b => decide (b ≠ 63)))).take 20).map
          (fun b => if badFileChars.contains b then 95 else b) ++
        45 :: (hexEncode ((sha256 (p.takeWhile (fun b => decide (b ≠ 63)))).take 8) ++
          pathExt (filepathBase (p.takeWhile (fun b => decide (b ≠ 63))))) := by
  refine ⟨?_, getSafeFilename_long p h⟩
  rw [getSafeFilename_long p h]
  have h8 : ((sha256 (p.takeWhile (fun b => decide (b ≠ 63)))).take 8).length = 8 := by
    rw [List.length_take, sha256_length]; decide
  simp only [List.length_append, List.length_map, List.length_take, List.length_cons,
    hexEncode_length, h8]
  omega

/-- A concrete long path used by the C9 witness. -/
def longPath : GoStr := List.replicate 201 97 ++ [46, 106]

/-- C9 witness: the long-name branch evaluated at a concrete 203-byte path
whose extension is ".j". -/
theorem getSafeFilename_long_bound_witness :
    (getSafeFilename longPath).length =
      37 + (pathExt (filepathBase (longPath.takeWhile (fun b => decide (b ≠ 63))))).length :=
  (getSafeFilename_long_bound longPath (by decide)).1

/-- C9 counterexample: no constant bounds the length of getSafeFilename's
output, because the preserved filepath extension can be arbitrarily long. -/
theorem getSafeFilename_unbounded :
    ¬ ∃ K : Nat, ∀ p : GoStr, (getSafeFilename p).length ≤ K := by
  rintro ⟨K, hK⟩
  have hmem : ∀ x ∈ (97 : Nat) :: 46 :: List.replicate (K + 300) 98, x = 97 ∨ x = 46 ∨ x = 98 := by
    intro x hx
    rcases List.mem_cons.mp hx with rfl | hx
    · exact Or.inl rfl
    rcases List.mem_cons.mp hx with rfl | hx
    · exact Or.inr (Or.inl rfl)
    · exact Or.inr (Or.inr (List.eq_of_mem_replicate hx))
  have hcut : ((97 : Nat) :: 46 :: List.replicate (K + 300) 98).takeWhile
      (fun b => decide (b ≠ 63)) = 97 :: 46 :: List.replicate (K + 300) 98 :=
    takeWhile_eq_self_of_all fun x hx => by
      rcases hmem x hx with rfl | rfl | rfl <;> decide
  have hbase : filepathBase ((97 : Nat) :: 46 :: List.replicate (K + 300) 98) =
      97 :: 46 :: List.replicate (K + 300) 98 :=
    filepathBase_of_noslash (by simp) fun x hx => by
      rcases hmem x hx with rfl | rfl | rfl <;> decide
  have hext : pathExt ((97 : Nat) :: 46 :: List.replicate (K + 300) 98) =
      46 :: List.replicate (K + 300) 98 := by
    simp only [pathExt, List.reverse_cons, List.reverse_replicate, List.append_assoc,
      List.cons_append, List.nil_append]
    rw [takeWhile_append_allB (fun x hx => by rw [List.eq_of_mem_replicate hx]; decide) (by decide)]
    rw [List.length_replicate, show (List.replicate (K + 300) 98 ++ [46, 97] : GoStr).drop (K + 300) = [46, 97] from by
      have := List.drop_left (List.replicate (K + 300) (98 : Nat)) [46, 97]
      rwa [List.length_replicate] at this]
    simp [List.reverse_replicate]
  have hlong := getSafeFilename_long_bound ((97 : Nat) :: 46 :: List.replicate (K + 300) 98)
    (by rw [hcut, hbase]; simp)
  have hlen := hK ((97 : Nat) :: 46 :: List.replicate (K + 300) 98)
  rw [hlong.1, hcut, hbase, hext] at hlen
  simp [List.length_replicate] at hlen
  omega

/-- C6: a read through the catalog cache immediately after a flush always
runs the builder and returns its fresh result; any read leaves the returned
snapshot stored, and a second read at or before the stored expiry with no
intervening flush returns the same snapshot without running the builder
again. -/
theorem cache_invalidate_and_ttl (build : List Video) (ttl : Nat) (st : CacheState)
    (now t2 : Nat) :
    ((getCatalogCached build ttl (cacheFlush st) now).1 = build ∧
      (getCatalogCached build ttl (cacheFlush st) now).2.2 = true) ∧
    (∀ v1 st1 ran1, getCatalogCached build ttl st now = (v1, st1, ran1) →
      ∃ exp1, st1.entry = some (v1, exp1)) ∧
    (∀ v1 st1 ran1, getCatalogCached build ttl st now = (v1, st1, ran1) →
      ∀ exp1, st1.entry = some (v1, exp1) → t2 ≤ exp1 →
        getCatalogCached build ttl st1 t2 = (v1, st1, false)) := by
  refine ⟨⟨rfl, rfl⟩, ?_, ?_⟩
  · intro v1 st1 ran1 h1
    cases hst : st.entry with
    | none =>
      simp [getCatalogCached, hst] at h1
      exact ⟨now + ttl, by rw [← h1.2.1, ← h1.1]⟩
    | some p =>
      obtain ⟨v, exp⟩ := p
      by_cases hc : exp < now
      · simp [getCatalogCached, hst, hc] at h1
        exact ⟨now + ttl, by rw [← h1.2.1, ← h1.1]⟩
      · simp [getCatalogCached, hst, hc] at h1
        exact ⟨exp, by rw [← h1.2.1, ← h1.1, hst]⟩
  · intro v1 st1 ran1 h1 exp1 hentry ht2
    have hnot : ¬ exp1 < t2 := Nat.not_lt.mpr ht2
    cases hst1 : st1.entry with
    | none => rw [hst1] at hentry; exact absurd hentry (by simp)
    | some p =>
      rw [hst1] at hentry
      obtain rfl : p = (v1, exp1) := Option.some.injEq .. ▸ hentry
      have : st1 = ⟨some (v1, exp1)⟩ := by
        cases st1 with
        | mk e => rw [← hst1]
      rw [this]
      simp [getCatalogCached, hnot]

/-- C6 witness: a cached snapshot stored with expiry 100 is returned
unchanged by a later read at time 50. -/
theorem cache_invalidate_and_ttl_witness :
    getCatalogCached [] defaultTTL (⟨some ([], 100)⟩ : CacheState) 50 =
      ([], (⟨some ([], 100)⟩ : CacheState), false) :=
  ((cache_invalidate_and_ttl [] defaultTTL (⟨some ([], 100)⟩ : CacheState) 40 50).2.2)
    [] (⟨some ([], 100)⟩ : CacheState) false (by decide) 100 rfl (by decide)

/-- Whether pass 2 of BulkGenerateThumbnails attempts an object: a
3-segment video key whose base key misses a thumbnail, or any such video
under force. -/
def bulkWanted (thumbs : List GoStr) (force : Bool) (o : GoStr) : Bool :=
  match objFilename o with
  | some f => isVideoName f && (force || !(thumbs.contains (extBaseKey o)))
  | none => false

/-- The video objects selected by pass 2 of BulkGenerateThumbnails. -/
def bulkSelected (thumbs : List GoStr) (force : Bool) (objs : List GoStr) : List GoStr :=
  objs.filter (bulkWanted thumbs force)

theorem bulkPass2_acc (thumbs : List GoStr) (step : GoStr → StepRes) (force : Bool) :
    ∀ (objs : List GoStr) (a b : Nat) (l : List GoStr),
      objs.foldl
        (fun acc o =>
          match objFilename o with
          | none => acc
          | some f =>
            if isVideoName f then
              if force || !(thumbs.contains (extBaseKey o)) then
                match step o with
                | .ok => (acc.1 + 1, acc.2.1, acc.2.2 ++ [o])
                | _ => (acc.1, acc.2.1 + 1, acc.2.2 ++ [o])
              else acc
            else acc)
        (a, b, l) =
      (a + ((bulkSelected thumbs force objs).filter (fun o => decide (step o = .ok))).length,
       b + ((bulkSelected thumbs force objs).filter (fun o => !(decide (step o = .ok)))).length,
       l ++ bulkSelected thumbs force objs) := by
  intro objs
  induction objs with
  | nil => intro a b l; simp [bulkSelected]
  | cons o rest ih =>
    intro a b l
    rw [List.foldl_cons]
    cases hf : objFilename o with
    | none =>
      have hpred : bulkWanted thumbs force o = false := by
        simp only [bulkWanted, hf]
      have hsel : bulkSelected thumbs force (o :: rest) = bulkSelected thumbs force rest := by
        simp [bulkSelected, List.filter_cons, hpred]
      simp only [hf]
      rw [ih a b l, hsel]
    | some f =>
      by_cases hv : isVideoName f = true
      · by_cases hn : (force || !(thumbs.contains (extBaseKey o))) = true
        · have hpred : bulkWanted thumbs force o = true := by
            simp only [bulkWanted, hf]
            rw [hv, hn]; rfl
          have hsel : bulkSelected thumbs force (o :: rest) =
              o :: bulkSelected thumbs force rest := by
            simp [bulkSelected, List.filter_cons, hpred]
          cases hs : step o with
          | ok =>
            simp only [hf, hv, hn, if_pos, hs]
            rw [ih (a + 1) b (l ++ [o]), hsel]
            simp [List.filter_cons, hs, List.append_assoc, Prod.mk.injEq]
            all_goals omega
          | downloadErr =>
            simp only [hf, hv, hn, if_pos, hs]
            rw [ih a (b + 1) (l ++ [o]), hsel]
            simp [List.filter_cons, hs, List.append_assoc, Prod.mk.injEq]
            all_goals omega
          | createErr =>
            simp only [hf, hv, hn, if_pos, hs]
            rw [ih a (b + 1) (l ++ [o]), hsel]
            simp [List.filter_cons, hs, List.append_assoc, Prod.mk.injEq]
            all_goals omega
          | validateErr =>
            simp only [hf, hv, hn, if_pos, hs]
            rw [ih a (b + 1) (l ++ [o]), hsel]
            simp [List.filter_cons, hs, List.append_assoc, Prod.mk.injEq]
            all_goals omega
          | uploadErr =>
            simp only [hf, hv, hn, if_pos, hs]
            rw [ih a (b + 1) (l ++ [o]), hsel]
            simp [List.filter_cons, hs, List.append_assoc, Prod.mk.injEq]
            all_goals omega
        · have hn' : (force || !(thumbs.contains (extBaseKey o))) = false := by
            simpa using hn
          have hpred : bulkWanted thumbs force o = false := by
            simp only [bulkWanted, hf]
            rw [hv, hn']; rfl
          have hsel : bulkSelected thumbs force (o :: rest) = bulkSelected thumbs force rest := by
            simp [bulkSelected, List.filter_cons, hpred]
          simp only [hf, hv, if_pos]
          rw [if_neg hn, ih a b l, hsel]
      · have hv' : isVideoName f = false := by simpa using hv
        have hpred : bulkWanted thumbs force o = false := by
          simp only [bulkWanted, hf]
          rw [hv']; rfl
        have hsel : bulkSelected thumbs force (o :: rest) = bulkSelected thumbs force rest := by
          simp [bulkSelected, List.filter_cons, hpred]
        simp only [hf]
        rw [if_neg hv, ih a b l, hsel]

/-- C7 (amended): with the ffmpeg probe succeeding and the listing
available, BulkGenerateThumbnails attempts exactly the 3-segment video
objects whose extension-stripped base key has no image counterpart (or all
of them under force); per-video step failures only increment the error
counter while the batch continues; no fatal error is returned and the
catalog cache is flushed exactly once at the end.  The probe and the listing
are the fatal failure points: a listing failure returns a fatal error and the
cache is not flushed at all. -/
theorem bulkGenerateThumbnails_spec (objs : List GoStr) (step : GoStr → StepRes)
    (timeMs : Nat) (force : Bool) :
    bulkGenerateThumbnails true (.ok objs) step timeMs force =
      ⟨((bulkSelected (thumbBaseKeys objs) force objs).filter
          (fun o => decide (step o = .ok))).length,
        ((bulkSelected (thumbBaseKeys objs) force objs).filter
          (fun o => !(decide (step o = .ok)))).length,
        false, bulkSelected (thumbBaseKeys objs) force objs, 1⟩ ∧
    ∀ e, bulkGenerateThumbnails true (.error e) step timeMs force = ⟨0, 0, true, [], 0⟩ := by
  constructor
  · show (⟨(bulkPass2 (thumbBaseKeys objs) step force objs).1,
      (bulkPass2 (thumbBaseKeys objs) step force objs).2.1, false,
      (bulkPass2 (thumbBaseKeys objs) step force objs).2.2, 1⟩ : BulkOutcome) = _
    rw [show bulkPass2 (thumbBaseKeys objs) step force objs =
      (((bulkSelected (thumbBaseKeys objs) force objs).filter
          (fun o => decide (step o = .ok))).length,
        ((bulkSelected (thumbBaseKeys objs) force objs).filter
          (fun o => !(decide (step o = .ok)))).length,
        bulkSelected (thumbBaseKeys objs) force objs) from by
      have h := bulkPass2_acc (thumbBaseKeys objs) step force objs 0 0 []
      simpa [bulkPass2] using h]
  · intro e
    rfl

/-- C7 counterexample: the claim says only a bucket-listing failure returns
a fatal error, but a failed ffmpeg probe is also fatal (with the listing
intact), before any video is considered. -/
theorem bulkGenerate_ffmpeg_probe_fatal :
    (bulkGenerateThumbnails false (.ok [gs ("A/G/x.mp4")]) (fun _ => .ok) 1000 false).fatal
        = true ∧
      (bulkGenerateThumbnails true (.ok [gs ("A/G/x.mp4")]) (fun _ => .ok) 1000 false).fatal
        = false := by
  exact ⟨rfl, rfl⟩

theorem insertBy_perm (c : α → α → Bool) (x : α) (l : List α) :
    (insertBy c x l).Perm (x :: l) := by
  induction l with
  | nil => exact List.Perm.refl _
  | cons y ys ih =>
    by_cases h : c x y = true
    · simp [insertBy, h]
    · simp only [insertBy, h]
      rw [if_neg (by decide : ¬ (false = true))]
      exact (ih.cons y).trans (List.Perm.swap x y ys)

theorem sortBy_perm (c : α → α → Bool) (l : List α) : (sortBy c l).Perm l := by
  induction l with
  | nil => exact List.Perm.refl _
  | cons x xs ih => exact (insertBy_perm c x (sortBy c xs)).trans (ih.cons x)

theorem mem_setA {m : List (GoStr × α)} {k : GoStr} {v : α} {e : GoStr × α}
    (h : e ∈ setA m k v) : e = (k, v) ∨ e ∈ m := by
  induction m with
  | nil => simpa [setA] using h
  | cons p t ih =>
    obtain ⟨p1, p2⟩ := p
    by_cases hk : p1 = k
    · rw [show setA ((p1, p2) :: t) k v = (k, v) :: t from by simp [setA, hk]] at h
      rcases List.mem_cons.mp h with rfl | h
      · exact Or.inl rfl
      · exact Or.inr (List.mem_cons_of_mem _ h)
    · rw [show setA ((p1, p2) :: t) k v = (p1, p2) :: setA t k v from by simp [setA, hk]] at h
      rcases List.mem_cons.mp h with rfl | h
      · exact Or.inr (List.mem_cons_self _ _)
      · rcases ih h with h | h
        · exact Or.inl h
        · exact Or.inr (List.mem_cons_of_mem _ h)

theorem lookupA_mem {m : List (GoStr × α)} {k : GoStr} {v : α}
    (h : lookupA m k = some v) : (k, v) ∈ m := by
  induction m with
  | nil => simp [lookupA] at h
  | cons p t ih =>
    obtain ⟨p1, p2⟩ := p
    by_cases hk : p1 = k
    · subst hk
      rw [show lookupA ((p1, p2) :: t) p1 = some p2 from by simp [lookupA]] at h
      rw [Option.some.injEq] at h
      rw [← h]
      exact List.mem_cons_self _ _
    · rw [show lookupA ((p1, p2) :: t) k = lookupA t k from by simp [lookupA, hk]] at h
      exact List.mem_cons_of_mem _ (ih h)

theorem wordBytes_lt (w : Nat) : ∀ b ∈ wordBytes w, b < 256 := by
  intro b hb
  simp only [wordBytes, List.mem_cons, List.not_mem_nil, or_false] at hb
  rcases hb with rfl | rfl | rfl | rfl <;> exact Nat.mod_lt _ (by decide)

theorem sha256_bytes_lt (msg : GoStr) : ∀ b ∈ sha256 msg, b < 256 := by
  intro b hb
  simp only [sha256, List.mem_append] at hb
  rcases hb with ((((((h | h) | h) | h) | h) | h) | h) | h <;> exact wordBytes_lt _ _ h

theorem b64Alphabet_getD_mem {i : Nat} (h : i < 64) : b64Alphabet.getD i 65 ∈ b64Alphabet := by
  have hlen : i < b64Alphabet.length := by
    rw [show b64Alphabet.length = 64 from by decide]
    exact h
  rw [List.getD_eq_getElem?_getD, List.getElem?_eq_getElem hlen]
  exact List.getElem_mem _

theorem galleryStubHash_shape (name secret : GoStr) :
    (galleryStubHash name secret).length = 4 ∧
      ∀ c ∈ galleryStubHash name secret, c ∈ b64Alphabet := by
  have hlen := sha256_length (name ++ secret)
  have hlt := sha256_bytes_lt (name ++ secret)
  cases e : sha256 (name ++ secret) with
  | nil => rw [e] at hlen; simp at hlen
  | cons b0 t0 =>
    cases t0 with
    | nil => rw [e] at hlen; simp at hlen
    | cons b1 t1 =>
      cases t1 with
      | nil => rw [e] at hlen; simp at hlen
      | cons b2 rest =>
        have h0 : b0 < 256 := hlt b0 (e ▸ List.mem_cons_self ..)
        have h1 : b1 < 256 := hlt b1 (e ▸ List.mem_cons_of_mem _ (List.mem_cons_self ..))
        have h2 : b2 < 256 := hlt b2
          (e ▸ List.mem_cons_of_mem _ (List.mem_cons_of_mem _ (List.mem_cons_self ..)))
        have he : galleryStubHash name secret =
            [b64Alphabet.getD (b0 / 4) 65,
             b64Alphabet.getD (b0 % 4 * 16 + b1 / 16) 65,
             b64Alphabet.getD (b1 % 16 * 4 + b2 / 64) 65,
             b64Alphabet.getD (b2 % 64) 65] := by
          unfold galleryStubHash
          rw [e]
          rfl
        rw [he]
        refine ⟨rfl, ?_⟩
        intro c hc
        simp only [List.mem_cons, List.not_mem_nil, or_false] at hc
        rcases hc with rfl | rfl | rfl | rfl
        · exact b64Alphabet_getD_mem (by omega)
        · exact b64Alphabet_getD_mem (by omega)
        · exact b64Alphabet_getD_mem (by omega)
        · exact b64Alphabet_getD_mem (by omega)

theorem galleriesMap_stub (secret : GoStr) :
    ∀ (videos : List Video) (m : List (GoStr × Gallery)),
      (∀ e ∈ m, (e.2).stub = galleryStubField (e.2).name secret ∧ (e.2).name = e.1) →
      ∀ e ∈ videos.foldl (stepGallery secret) m,
        (e.2).stub = galleryStubField (e.2).name secret ∧ (e.2).name = e.1 := by
  intro videos
  induction videos with
  | nil => intro m inv e he; exact inv e he
  | cons v vs ih =>
    intro m inv e he
    rw [List.foldl_cons] at he
    refine ih (stepGallery secret m v) ?_ e he
    intro e' he'
    unfold stepGallery at he'
    cases hl : lookupA m v.gallery with
    | some g =>
      rw [hl] at he'
      rcases mem_setA he' with rfl | hmem
      · have hg := inv (v.gallery, g) (lookupA_mem hl)
        exact ⟨by rw [hg.1], hg.2⟩
      · exact inv e' hmem
    | none =>
      rw [hl] at he'
      rcases mem_setA he' with rfl | hmem
      · exact ⟨rfl, rfl⟩
      · exact inv e' hmem

/-- C2 (amended): every gallery produced by the grouping step carries the
stub "/gallery/" followed by the 4-character hash determined purely by its
name and the server secret, independently of the order or content of the
video list; the hash segment is always exactly 4 base64url characters.  (The
stored stub string itself is 13 characters, and distinct secrets can collide
on the 4-character hash.) -/
theorem galleryStub_deterministic (secret : GoStr) (videos : List Video) (g : Gallery)
    (hg : g ∈ buildGalleries secret videos) :
    g.stub = galleryStubField g.name secret ∧
      (galleryStubHash g.name secret).length = 4 ∧
      ∀ c ∈ galleryStubHash g.name secret, c ∈ b64Alphabet := by
  have hmem : g ∈ valuesA (videos.foldl (stepGallery secret) []) :=
    ((sortBy_perm _ _).mem_iff).mp hg
  obtain ⟨e, he, rfl⟩ := List.mem_map.mp hmem
  have h := galleriesMap_stub secret videos [] (by simp) e he
  exact ⟨h.1, (galleryStubHash_shape _ secret).1, (galleryStubHash_shape _ secret).2⟩

/-- A one-video catalog used by the C2 witness. -/
def demoVideo : Video :=
  { name := gs ("Die Hard"), category := gs ("Movies"), gallery := gs ("Action"),
    url := gs ("u"), videoPath := gs ("Movies/Action/Die Hard.mp4") }

/-- The gallery that the C2 witness exhibits. -/
def demoGallery : Gallery :=
  { name := gs ("Action"), category := gs ("Movies"),
    stub := galleryStubField (gs ("Action")) (gs ("s")), videos := [demoVideo] }

/-- C2 witness: the gallery built from one concrete video carries the
deterministic stub of ("Action", "s"). -/
theorem galleryStub_deterministic_witness :
    demoGallery ∈ buildGalleries (gs ("s")) [demoVideo] ∧
      demoGallery.stub = galleryStubField demoGallery.name (gs ("s")) ∧
        (galleryStubHash demoGallery.name (gs ("s"))).length = 4 := by
  have h := galleryStub_deterministic (gs ("s")) [demoVideo] demoGallery (by decide)
  exact ⟨by decide, h.1, h.2.1⟩

/-- C2 counterexample: the claim that the stub is exactly 4 characters and
that changing the secret changes the stub both fail on the code: the stored
stub is "/gallery/" plus the hash (13 characters), and the secrets k445 and
k6992 yield the same 4-character hash j_SU for the gallery name Holiday. -/
theorem galleryStub_collision :
    gs ("k445") ≠ gs ("k6992") ∧
      galleryStubHash (gs ("Holiday")) (gs ("k445")) =
        galleryStubHash (gs ("Holiday")) (gs ("k6992")) ∧
      galleryStubField (gs ("Holiday")) (gs ("k445")) =
        galleryStubField (gs ("Holiday")) (gs ("k6992")) ∧
      (galleryStubField (gs ("Holiday")) (gs ("k445"))).length = 13 := by
  refine ⟨by decide, by decide, by decide, by decide⟩

theorem splitSlash_noslash {c : GoStr} (hc : (47 : Nat) ∉ c) : splitSlash c = [c] := by
  induction c with
  | nil => rfl
  | cons x xs ih =>
    have hx : x ≠ 47 := fun h => hc (h ▸ List.mem_cons_self x xs)
    have hxs : (47 : Nat) ∉ xs := fun h => hc (List.mem_cons_of_mem x h)
    simp only [splitSlash, ih hxs]
    rw [if_neg hx]

theorem splitSlash_append {a : GoStr} (rest : GoStr) (ha : (47 : Nat) ∉ a) :
    splitSlash (a ++ 47 :: rest) = a :: splitSlash rest := by
  induction a with
  | nil => simp [splitSlash]
  | cons x xs ih =>
    have hx : x ≠ 47 := fun h => ha (h ▸ List.mem_cons_self x xs)
    have hxs : (47 : Nat) ∉ xs := fun h => ha (List.mem_cons_of_mem x h)
    have ih' : splitSlash (xs.append (47 :: rest)) = xs :: splitSlash rest := ih hxs
    simp only [List.cons_append, splitSlash]
    rw [if_neg hx, ih']

theorem splitSlash_3 {a b c : GoStr} (ha : (47 : Nat) ∉ a) (hb : (47 : Nat) ∉ b)
    (hc : (47 : Nat) ∉ c) : splitSlash (a ++ 47 :: (b ++ 47 :: c)) = [a, b, c] := by
  rw [splitSlash_append _ ha, splitSlash_append _ hb, splitSlash_noslash hc]

theorem stripExt_dotext (base : GoStr) {e : GoStr} (he : e ≠ [])
    (hall : ∀ x ∈ e, isAlnumB x = true) : stripExt (base ++ 46 :: e) = base := by
  have hrev : (base ++ 46 :: e).reverse = e.reverse ++ 46 :: base.reverse := by
    simp
  have htw : (e.reverse ++ 46 :: base.reverse).takeWhile isAlnumB = e.reverse :=
    takeWhile_append_allB (fun x hx => hall x (List.mem_reverse.mp hx)) (by decide)
  have hne : e.reverse.isEmpty = false := by
    cases hrv : e.reverse with
    | nil => exact absurd (List.reverse_eq_nil_iff.mp hrv) he
    | cons y ys => rfl
  simp only [stripExt, hrev, htw, hne, Bool.false_eq_true, if_false]
  rw [show (e.reverse ++ 46 :: base.reverse).drop e.reverse.length = 46 :: base.reverse from
    List.drop_left e.reverse (46 :: base.reverse)]
  exact List.reverse_reverse base

theorem hasSuffixB_iff {s e : GoStr} : hasSuffixB s e = true ↔ e <:+ s := by
  rw [hasSuffixB]
  exact List.isSuffixOf_iff_suffix

theorem hasSuffixB_false_of_incomparable {s e1 e2 : GoStr} (h1 : e1 <:+ s)
    (h2 : ¬ e2 <:+ e1) (h3 : ¬ e1 <:+ e2) : hasSuffixB s e2 = false := by
  cases hb : hasSuffixB s e2 with
  | false => rfl
  | true =>
    rcases List.suffix_or_suffix_of_suffix (hasSuffixB_iff.mp hb) h1 with h | h
    · exact absurd h h2
    · exact absurd h h3

/-- The merged record that the C1 theorem exhibits. -/
def mergedVideo (cat gal base urlv urli kv ki : GoStr) : Video :=
  { name := base, category := cat, gallery := gal, url := urlv, videoPath := kv,
    thumbnail := some urli, thumbnailPath := ki }

theorem stepVideo_first (sign : GoStr → Option GoStr) (cat gal base ext url : GoStr)
    (hcat : (47 : Nat) ∉ cat) (hgal : (47 : Nat) ∉ gal) (hbase : (47 : Nat) ∉ base)
    (hnoslash : (47 : Nat) ∉ ext) (hne : base ++ ext ≠ [])
    (hstrip : stripExt (base ++ ext) = base)
    (hsign : sign (cat ++ 47 :: (gal ++ 47 :: (base ++ ext))) = some url) :
    stepVideo sign [] (cat ++ 47 :: (gal ++ 47 :: (base ++ ext))) =
      [(base, updVideo none cat gal (base ++ ext)
        (cat ++ 47 :: (gal ++ 47 :: (base ++ ext))) url)] := by
  have hsplit := splitSlash_3 hcat hgal (c := base ++ ext)
    (fun hm => (List.mem_append.mp hm).elim (fun h => hbase h) (fun h => hnoslash h))
  simp only [stepVideo, hsplit]
  rw [if_neg hne, hsign]
  simp only [hstrip]
  rfl

theorem stepVideo_second (sign : GoStr → Option GoStr) (cat gal base ext url : GoStr)
    (v : Video)
    (hcat : (47 : Nat) ∉ cat) (hgal : (47 : Nat) ∉ gal) (hbase : (47 : Nat) ∉ base)
    (hnoslash : (47 : Nat) ∉ ext) (hne : base ++ ext ≠ [])
    (hstrip : stripExt (base ++ ext) = base)
    (hsign : sign (cat ++ 47 :: (gal ++ 47 :: (base ++ ext))) = some url) :
    stepVideo sign [(base, v)] (cat ++ 47 :: (gal ++ 47 :: (base ++ ext))) =
      [(base, updVideo (some v) cat gal (base ++ ext)
        (cat ++ 47 :: (gal ++ 47 :: (base ++ ext))) url)] := by
  have hsplit := splitSlash_3 hcat hgal (c := base ++ ext)
    (fun hm => (List.mem_append.mp hm).elim (fun h => hbase h) (fun h => hnoslash h))
  simp only [stepVideo, hsplit]
  rw [if_neg hne, hsign]
  simp only [hstrip]
  simp [lookupA, setA]

theorem extFactsVideo (base vext : GoStr) (hv : vext ∈ videoExtensions) :
    stripExt (base ++ vext) = base ∧ isVideoName (base ++ vext) = true ∧
      isImageName (base ++ vext) = false ∧ (47 : Nat) ∉ vext ∧ vext ≠ [] := by
  simp only [videoExtensions, List.mem_cons, List.not_mem_nil, or_false] at hv
  rcases hv with rfl | rfl | rfl | rfl | rfl <;>
    refine ⟨stripExt_dotext base (by decide) (by decide), ?_, ?_, by decide, by decide⟩ <;>
    first
    | exact (List.any_eq_true).mpr ⟨_, by decide, hasSuffixB_iff.mpr (List.suffix_append base _)⟩
    | · refine (List.any_eq_false).mpr ?_
        intro x hx
        simp only [imageExtensions, List.mem_cons, List.not_mem_nil, or_false] at hx
        rcases hx with rfl | rfl | rfl <;>
          · intro hcon
            rw [hasSuffixB_false_of_incomparable (List.suffix_append base _)
              (by decide) (by decide)] at hcon
            exact absurd hcon (by decide)

theorem extFactsImage (base iext : GoStr) (hi : iext ∈ imageExtensions) :
    stripExt (base ++ iext) = base ∧ isImageName (base ++ iext) = true ∧
      isVideoName (base ++ iext) = false ∧ (47 : Nat) ∉ iext ∧ iext ≠ [] := by
  simp only [imageExtensions, List.mem_cons, List.not_mem_nil, or_false] at hi
  rcases hi with rfl | rfl | rfl <;>
    refine ⟨stripExt_dotext base (by decide) (by decide), ?_, ?_, by decide, by decide⟩ <;>
    first
    | exact (List.any_eq_true).mpr ⟨_, by decide, hasSuffixB_iff.mpr (List.suffix_append base _)⟩
    | · refine (List.any_eq_false).mpr ?_
        intro x hx
        simp only [videoExtensions, List.mem_cons, List.not_mem_nil, or_false] at hx
        rcases hx with rfl | rfl | rfl | rfl | rfl <;>
          · intro hcon
            rw [hasSuffixB_false_of_incomparable (List.suffix_append base _)
              (by decide) (by decide)] at hcon
            exact absurd hcon (by decide)

/-- C1 (amended): a video object and an image object with exactly 3 path
segments sharing category, gallery and extension-stripped base name merge
into exactly one Video whose url comes from the video object and whose
thumbnail comes from the image object, in either processing order.  (The
merge map is keyed by the base name alone, not by the composite
category+gallery+base triple.) -/
theorem videoThumbnail_merge (sign : GoStr → Option GoStr)
    (cat gal base vext iext urlv urli : GoStr)
    (hv : vext ∈ videoExtensions) (hi : iext ∈ imageExtensions)
    (hcat : (47 : Nat) ∉ cat) (hgal : (47 : Nat) ∉ gal) (hbase : (47 : Nat) ∉ base)
    (hsv : sign (cat ++ 47 :: (gal ++ 47 :: (base ++ vext))) = some urlv)
    (hsi : sign (cat ++ 47 :: (gal ++ 47 :: (base ++ iext))) = some urli) :
    getVideosInternal sign
        [cat ++ 47 :: (gal ++ 47 :: (base ++ vext)),
         cat ++ 47 :: (gal ++ 47 :: (base ++ iext))] =
      [mergedVideo cat gal base urlv urli (cat ++ 47 :: (gal ++ 47 :: (base ++ vext)))
        (cat ++ 47 :: (gal ++ 47 :: (base ++ iext)))] ∧
    getVideosInternal sign
        [cat ++ 47 :: (gal ++ 47 :: (base ++ iext)),
         cat ++ 47 :: (gal ++ 47 :: (base ++ vext))] =
      [mergedVideo cat gal base urlv urli (cat ++ 47 :: (gal ++ 47 :: (base ++ vext)))
        (cat ++ 47 :: (gal ++ 47 :: (base ++ iext)))] := by
  obtain ⟨hstripv, hvidv, himgv, hnsv, hnev⟩ := extFactsVideo base vext hv
  obtain ⟨hstripi, himgi, hvidi, hnsi, hnei⟩ := extFactsImage base iext hi
  have hnev' : base ++ vext ≠ [] := fun h => hnev (List.append_eq_nil.mp h).2
  have hnei' : base ++ iext ≠ [] := fun h => hnei (List.append_eq_nil.mp h).2
  constructor
  · unfold getVideosInternal videosMap
    rw [List.foldl_cons, List.foldl_cons, List.foldl_nil]
    rw [stepVideo_first sign cat gal base vext urlv hcat hgal hbase hnsv hnev' hstripv hsv]
    rw [stepVideo_second sign cat gal base iext urli _ hcat hgal hbase hnsi hnei' hstripi hsi]
    simp only [updVideo, hstripv, hstripi, hvidv, himgv, hvidi, himgi,
      eq_self_iff_true, if_true, Bool.false_eq_true, if_false, Option.getD_none,
      Option.getD_some, valuesA, List.map_cons, List.map_nil, sortBy, insertBy]
    rfl
  · unfold getVideosInternal videosMap
    rw [List.foldl_cons, List.foldl_cons, List.foldl_nil]
    rw [stepVideo_first sign cat gal base iext urli hcat hgal hbase hnsi hnei' hstripi hsi]
    rw [stepVideo_second sign cat gal base vext urlv _ hcat hgal hbase hnsv hnev' hstripv hsv]
    simp only [updVideo, hstripv, hstripi, hvidv, himgv, hvidi, himgi,
      eq_self_iff_true, if_true, Bool.false_eq_true, if_false, Option.getD_none,
      Option.getD_some, valuesA, List.map_cons, List.map_nil, sortBy, insertBy]
    rfl

/-- C1 witness: the Die Hard video and image objects merge into one record
in both processing orders, under the concrete signing oracle. -/
theorem videoThumbnail_merge_witness :
    getVideosInternal csign
        [gs ("Movies/Action/Die Hard.mp4"), gs ("Movies/Action/Die Hard.jpg")] =
      [mergedVideo (gs ("Movies")) (gs ("Action")) (gs ("Die Hard"))
        (gs ("https://signed/Movies/Action/Die Hard.mp4"))
        (gs ("https://signed/Movies/Action/Die Hard.jpg"))
        (gs ("Movies/Action/Die Hard.mp4")) (gs ("Movies/Action/Die Hard.jpg"))] ∧
    getVideosInternal csign
        [gs ("Movies/Action/Die Hard.jpg"), gs ("Movies/Action/Die Hard.mp4")] =
      [mergedVideo (gs ("Movies")) (gs ("Action")) (gs ("Die Hard"))
        (gs ("https://signed/Movies/Action/Die Hard.mp4"))
        (gs ("https://signed/Movies/Action/Die Hard.jpg"))
        (gs ("Movies/Action/Die Hard.mp4")) (gs ("Movies/Action/Die Hard.jpg"))] := by
  have h := videoThumbnail_merge csign (gs ("Movies")) (gs ("Action")) (gs ("Die Hard"))
    (gs (".mp4")) (gs (".jpg"))
    (gs ("https://signed/Movies/Action/Die Hard.mp4"))
    (gs ("https://signed/Movies/Action/Die Hard.jpg"))
    (by decide) (by decide) (by decide) (by decide) (by decide) (by decide) (by decide)
  have e1 : (gs ("Movies/Action/Die Hard.mp4") : GoStr) =
      gs ("Movies") ++ 47 :: (gs ("Action") ++ 47 :: (gs ("Die Hard") ++ gs (".mp4"))) := by
    decide
  have e2 : (gs ("Movies/Action/Die Hard.jpg") : GoStr) =
      gs ("Movies") ++ 47 :: (gs ("Action") ++ 47 :: (gs ("Die Hard") ++ gs (".jpg"))) := by
    decide
  rw [e1, e2]
  exact h

/-- C1 counterexample: the keys A/G/x.mp4 and B/H/x.jpg differ in both the
category and the gallery segment yet are merged into a single Video record
(the merge map is keyed by base name only), contradicting the claim that
such objects are never merged. -/
theorem crossGallery_merge :
    getVideosInternal csign [gs ("A/G/x.mp4"), gs ("B/H/x.jpg")] =
      [mergedVideo (gs ("A")) (gs ("G")) (gs ("x"))
        (gs ("https://signed/A/G/x.mp4")) (gs ("https://signed/B/H/x.jpg"))
        (gs ("A/G/x.mp4")) (gs ("B/H/x.jpg"))] := by
  decide

theorem commaJoin_arrTail (x : GoStr) (xs : List GoStr) :
    commaJoin (x :: xs) ++ [93] = x ++ specArrTail xs := by
  induction xs generalizing x with
  | nil => rfl
  | cons y ys ih =>
    show (x ++ 44 :: commaJoin (y :: ys)) ++ [93] = x ++ 44 :: (y ++ specArrTail ys)
    rw [List.append_assoc, List.cons_append, ih y]

theorem specJsonArr_eq (l : List GoStr) : 91 :: (commaJoin l ++ [93]) = specJsonArr l := by
  cases l with
  | nil => rfl
  | cons x xs =>
    show 91 :: (commaJoin (x :: xs) ++ [93]) = 91 :: (x ++ specArrTail xs)
    rw [commaJoin_arrTail]

theorem marshalVideo_eq (v : Video) : marshalVideo v = specVideoJsonG v := by
  have c1 : (gs ("\x7b\"name\":") : GoStr) = 123 :: (jsonStr (gs ("name")) ++ [58]) := by decide
  have c2 : (gs (",\"url\":") : GoStr) = 44 :: (jsonStr (gs ("url")) ++ [58]) := by decide
  have c3 : (gs (",\"thumbnail\":") : GoStr) =
      44 :: (jsonStr (gs ("thumbnail")) ++ [58]) := by decide
  have c4 : (gs ("\x7d") : GoStr) = [125] := by decide
  cases ht : v.thumbnail with
  | none =>
    simp only [marshalVideo, specVideoJsonG, ht]
    rw [c1, c2, c4]
    simp [commaJoin, List.append_assoc]
  | some t =>
    simp only [marshalVideo, specVideoJsonG, ht]
    rw [c1, c2, c3, c4]
    simp [commaJoin, List.append_assoc]

theorem marshalGallery_eq (g : Gallery) : marshalGallery g = specGalleryJsonG g := by
  have c1 : (gs ("\x7b\"name\":") : GoStr) = 123 :: (jsonStr (gs ("name")) ++ [58]) := by decide
  have c6 : (gs (",\"category\":") : GoStr) =
      44 :: (jsonStr (gs ("category")) ++ [58]) := by decide
  have c7 : (gs (",\"videos\":") : GoStr) = 44 :: (jsonStr (gs ("videos")) ++ [58]) := by decide
  have c4 : (gs ("\x7d") : GoStr) = [125] := by decide
  have harr : (91 : Nat) :: (commaJoin (g.videos.map marshalVideo) ++ [93]) =
      specJsonArr (g.videos.map specVideoJsonG) := by
    rw [specJsonArr_eq, List.map_congr_left fun v _ => marshalVideo_eq v]
  simp only [marshalGallery, specGalleryJsonG]
  rw [c1, c6, c7, c4, ← harr]
  simp [commaJoin, List.append_assoc]

/-- C3 (amended): the feed body is the JSON serialization of the gallery
array: each gallery object carries name, category and its videos (no stub
key), and each video carries name, url, and a thumbnail key only when a
thumbnail is paired. -/
theorem feedBody_is_gallery_array (sign : GoStr → Option GoStr) (secret : GoStr)
    (keys : List GoStr) :
    feedBody sign secret keys = specGalleryFeed sign secret keys := by
  unfold feedBody specGalleryFeed
  rw [List.map_congr_left fun g _ => marshalGallery_eq g]
  exact specJsonArr_eq _

/-- C3 counterexample: on the one-object bucket Movies/Action/Die Hard.mp4
the feed body is not the serialization of a Category array with name, stub
and galleries keys; the code serializes the gallery array instead. -/
theorem feedBody_not_category_array :
    feedBody csign (gs ("s")) [gs ("Movies/Action/Die Hard.mp4")] ≠
      specCategoryFeed csign (gs ("s")) [gs ("Movies/Action/Die Hard.mp4")] := by
  decide

/-- The per-object action of GetVideosInternal viewed on the merge map as a
function from base names to records (used to reason about processing
order). -/
def stepF (sign : GoStr → Option GoStr) (f : GoStr → Option Video) (k : GoStr) :
    GoStr → Option Video :=
  match splitSlash k with
  | [category, gallery, filename] =>
    if filename = [] then f
    else
      match sign k with
      | none => f
      | some url =>
        fun b =>
          if b = stripExt filename then
            some (updVideo (f (stripExt filename)) category gallery filename k url)
          else f b
  | _ => f

/-- The merge map of a scan as a function from base names to records. -/
def buildF (sign : GoStr → Option GoStr) (keys : List GoStr) : GoStr → Option Video :=
  keys.foldl (stepF sign) (fun _ => none)

theorem lookupA_setA (m : List (GoStr × α)) (k : GoStr) (v : α) (b : GoStr) :
    lookupA (setA m k v) b = if b = k then some v else lookupA m b := by
  induction m with
  | nil =>
    show lookupA [(k, v)] b = _
    by_cases hb : b = k
    · subst hb; simp [lookupA]
    · rw [if_neg hb]
      show (if k = b then some v else lookupA [] b) = lookupA ([] : List (GoStr × α)) b
      rw [if_neg (fun h => hb (Eq.symm h))]
  | cons p t ih =>
    obtain ⟨p1, p2⟩ := p
    by_cases hk : p1 = k
    · subst hk
      rw [show setA ((p1, p2) :: t) p1 v = (p1, v) :: t from by simp [setA]]
      by_cases hb : b = p1
      · subst hb; simp [lookupA]
      · show (if p1 = b then some v else lookupA t b) =
          if b = p1 then some v else lookupA ((p1, p2) :: t) b
        rw [if_neg (fun h => hb (Eq.symm h)), if_neg hb]
        show lookupA t b = if p1 = b then some p2 else lookupA t b
        rw [if_neg (fun h => hb (Eq.symm h))]
    · rw [show setA ((p1, p2) :: t) k v = (p1, p2) :: setA t k v from by simp [setA, hk]]
      show (if p1 = b then some p2 else lookupA (setA t k v) b) = _
      by_cases hpb : p1 = b
      · subst hpb
        rw [if_pos rfl, if_neg (fun h => hk h)]
        show some p2 = lookupA ((p1, p2) :: t) p1
        simp [lookupA]
      · rw [if_neg hpb, ih]
        by_cases hbk : b = k
        · rw [if_pos hbk, if_pos hbk]
        · rw [if_neg hbk, if_neg hbk]
          show lookupA t b = lookupA ((p1, p2) :: t) b
          simp [lookupA, hpb]

theorem lookup_stepVideo (sign : GoStr → Option GoStr) (m : List (GoStr × Video))
    (k : GoStr) (b : GoStr) :
    lookupA (stepVideo sign m k) b = stepF sign (lookupA m) k b := by
  cases hs : splitSlash k with
  | nil => simp [stepVideo, stepF, hs]
  | cons c t =>
    cases t with
    | nil => simp [stepVideo, stepF, hs]
    | cons g t2 =>
      cases t2 with
      | nil => simp [stepVideo, stepF, hs]
      | cons fn t3 =>
        cases t3 with
        | cons d t4 => simp [stepVideo, stepF, hs]
        | nil =>
          by_cases hfn : fn = []
          · simp [stepVideo, stepF, hs, hfn]
          · cases hsig : sign k with
            | none => simp [stepVideo, stepF, hs, hfn, hsig]
            | some url =>
              simp only [stepVideo, stepF, hs, hsig]
              rw [if_neg hfn, if_neg hfn, lookupA_setA]

theorem lookup_videosMap (sign : GoStr → Option GoStr) (keys : List GoStr) (b : GoStr) :
    lookupA (videosMap sign keys) b = buildF sign keys b := by
  suffices h : ∀ (m : List (GoStr × Video)),
      lookupA (keys.foldl (stepVideo sign) m) b = (keys.foldl (stepF sign) (lookupA m)) b by
    have h2 := h []
    unfold videosMap buildF
    rw [h2]
    have : (lookupA ([] : List (GoStr × Video))) = (fun _ : GoStr => (none : Option Video)) := by
      funext x
      rfl
    rw [this]
  induction keys with
  | nil => intro m; rfl
  | cons k ks ih =>
    intro m
    rw [List.foldl_cons, List.foldl_cons, ih (stepVideo sign m k)]
    have : lookupA (stepVideo sign m k) = stepF sign (lookupA m) k := by
      funext x
      exact lookup_stepVideo sign m k x
    rw [this]

/-- Compatibility of two bucket objects: when both participate and share an
extension-stripped base name they must agree on category and gallery, and
no base name may carry two distinct video objects or two distinct image
objects.  Buckets following the intended layout satisfy this. -/
def objCompat (k1 k2 : GoStr) : Bool :=
  match splitSlash k1, splitSlash k2 with
  | [c1, g1, f1], [c2, g2, f2] =>
    if f1 ≠ [] ∧ f2 ≠ [] ∧ stripExt f1 = stripExt f2 then
      decide (c1 = c2) && decide (g1 = g2) &&
        (!(isVideoName f1 && isVideoName f2) || decide (k1 = k2)) &&
        (!(isImageName f1 && isImageName f2) || decide (k1 = k2))
    else true
  | _, _ => true

theorem stepF_spec (sign : GoStr → Option GoStr) (k : GoStr) :
    (∀ f, stepF sign f k = f) ∨
    ∃ c g fn url, splitSlash k = [c, g, fn] ∧ fn ≠ [] ∧ sign k = some url ∧
      ∀ f, stepF sign f k = fun b =>
        if b = stripExt fn then
          some (updVideo (f (stripExt fn)) c g fn k url)
        else f b := by
  cases hs : splitSlash k with
  | nil => exact Or.inl fun f => by simp [stepF, hs]
  | cons c t =>
    cases t with
    | nil => exact Or.inl fun f => by simp [stepF, hs]
    | cons g t2 =>
      cases t2 with
      | nil => exact Or.inl fun f => by simp [stepF, hs]
      | cons fn t3 =>
        cases t3 with
        | cons d t4 => exact Or.inl fun f => by simp [stepF, hs]
        | nil =>
          by_cases hfn : fn = []
          · exact Or.inl fun f => by simp [stepF, hs, hfn]
          · cases hsig : sign k with
            | none => exact Or.inl fun f => by simp [stepF, hs, hfn, hsig]
            | some url =>
              refine Or.inr ⟨c, g, fn, url, rfl, hfn, rfl, fun f => ?_⟩
              simp only [stepF, hs, hsig]
              rw [if_neg hfn]

theorem updVideo_comm (cur : Option Video) (c g f1 f2 k1 k2 u1 u2 : GoStr)
    (hbase : stripExt f1 = stripExt f2)
    (hv : ¬(isVideoName f1 = true ∧ isVideoName f2 = true))
    (hi : ¬(isImageName f1 = true ∧ isImageName f2 = true)) :
    updVideo (some (updVideo cur c g f1 k1 u1)) c g f2 k2 u2 =
      updVideo (some (updVideo cur c g f2 k2 u2)) c g f1 k1 u1 := by
  cases hv1 : isVideoName f1 <;> cases hi1 : isImageName f1 <;>
    cases hv2 : isVideoName f2 <;> cases hi2 : isImageName f2 <;>
    first
    | (cases cur <;> simp [updVideo, hbase, hv1, hi1, hv2, hi2] <;> done)
    | exact absurd (show isVideoName f1 = true ∧ isVideoName f2 = true from ⟨hv1, hv2⟩) hv
    | exact absurd (show isImageName f1 = true ∧ isImageName f2 = true from ⟨hi1, hi2⟩) hi

theorem stepF_comm (sign : GoStr → Option GoStr) (k1 k2 : GoStr)
    (hc : objCompat k1 k2 = true) (hk : k1 ≠ k2) (f : GoStr → Option Video) :
    stepF sign (stepF sign f k1) k2 = stepF sign (stepF sign f k2) k1 := by
  rcases stepF_spec sign k1 with h1 | ⟨c1, g1, f1, u1, hs1, hne1, hg1, h1⟩
  · rw [h1, h1]
  rcases stepF_spec sign k2 with h2 | ⟨c2, g2, f2, u2, hs2, hne2, hg2, h2⟩
  · rw [h2, h2]
  rw [h2 (stepF sign f k1), h1 f, h1 (stepF sign f k2), h2 f]
  funext b
  simp only []
  by_cases hb12 : stripExt f1 = stripExt f2
  · have hcomp := hc
    simp only [objCompat, hs1, hs2] at hcomp
    rw [if_pos ⟨hne1, hne2, hb12⟩] at hcomp
    have hA := (Bool.and_eq_true _ _).mp hcomp
    have hB := (Bool.and_eq_true _ _).mp hA.1
    have hC := (Bool.and_eq_true _ _).mp hB.1
    have hcc : c1 = c2 := of_decide_eq_true hC.1
    have hgg : g1 = g2 := of_decide_eq_true hC.2
    have hvv : ¬(isVideoName f1 = true ∧ isVideoName f2 = true) := by
      intro hpair
      have hB2 := hB.2
      rw [hpair.1, hpair.2] at hB2
      simp only [Bool.and_self, Bool.not_true, Bool.false_or, decide_eq_true_eq] at hB2
      exact hk hB2
    have hii : ¬(isImageName f1 = true ∧ isImageName f2 = true) := by
      intro hpair
      have hA2 := hA.2
      rw [hpair.1, hpair.2] at hA2
      simp only [Bool.and_self, Bool.not_true, Bool.false_or, decide_eq_true_eq] at hA2
      exact hk hA2
    subst hcc
    subst hgg
    rw [← hb12]
    by_cases hb : b = stripExt f1
    · rw [if_pos hb, if_pos hb, if_pos rfl, if_pos rfl]
      exact congrArg some (updVideo_comm (f (stripExt f1)) c1 g1 f1 f2 k1 k2 u1 u2 hb12 hvv hii)
    · rw [if_neg hb, if_neg hb, if_neg hb, if_neg hb]
  · by_cases hb1 : b = stripExt f1 <;> by_cases hb2 : b = stripExt f2
    · exact absurd ((Eq.symm hb1).trans hb2) hb12
    · rw [if_neg hb2, if_pos hb1, if_pos hb1, if_neg hb12]
    · rw [if_pos hb2, if_neg (fun h => hb12 (Eq.symm h)), if_neg hb1, if_pos hb2]
    · rw [if_neg hb2, if_neg hb1, if_neg hb1, if_neg hb2]

theorem keysA_cons (p : GoStr × α) (t : List (GoStr × α)) :
    keysA (p :: t) = p.1 :: keysA t := rfl

theorem lookupA_none_iff {m : List (GoStr × α)} {b : GoStr} :
    lookupA m b = none ↔ b ∉ keysA m := by
  induction m with
  | nil => simp [lookupA, keysA]
  | cons p t ih =>
    obtain ⟨p1, p2⟩ := p
    by_cases hp : p1 = b
    · subst hp
      constructor
      · intro h
        exact absurd h (by simp [lookupA])
      · intro h
        exact absurd (by simp [keysA_cons] : p1 ∈ keysA ((p1, p2) :: t)) h
    · rw [show lookupA ((p1, p2) :: t) b = lookupA t b from by simp [lookupA, hp], ih]
      constructor
      · intro h hmem
        rw [keysA_cons, List.mem_cons] at hmem
        rcases hmem with heq | hmem2
        · exact hp (Eq.symm heq)
        · exact h hmem2
      · intro h hmem
        refine h ?_
        rw [keysA_cons, List.mem_cons]
        exact Or.inr hmem

theorem keysA_setA (m : List (GoStr × α)) (k : GoStr) (v : α) :
    keysA (setA m k v) =
      if (lookupA m k).isNone then keysA m ++ [k] else keysA m := by
  induction m with
  | nil => simp [setA, keysA, lookupA]
  | cons p t ih =>
    obtain ⟨p1, p2⟩ := p
    by_cases hp : p1 = k
    · subst hp
      rw [show setA ((p1, p2) :: t) p1 v = (p1, v) :: t from by simp [setA]]
      rw [show lookupA ((p1, p2) :: t) p1 = some p2 from by simp [lookupA]]
      simp [keysA]
    · rw [show setA ((p1, p2) :: t) k v = (p1, p2) :: setA t k v from by simp [setA, hp]]
      rw [show lookupA ((p1, p2) :: t) k = lookupA t k from by simp [lookupA, hp]]
      rw [keysA_cons, keysA_cons, ih]
      cases hl : lookupA t k with
      | none => simp
      | some w => simp

theorem stepVideo_spec (sign : GoStr → Option GoStr) (m : List (GoStr × Video)) (k : GoStr) :
    stepVideo sign m k = m ∨
    ∃ c g fn url, splitSlash k = [c, g, fn] ∧ fn ≠ [] ∧ sign k = some url ∧
      stepVideo sign m k =
        setA m (stripExt fn) (updVideo (lookupA m (stripExt fn)) c g fn k url) := by
  cases hs : splitSlash k with
  | nil => exact Or.inl (by simp [stepVideo, hs])
  | cons c t =>
    cases t with
    | nil => exact Or.inl (by simp [stepVideo, hs])
    | cons g t2 =>
      cases t2 with
      | nil => exact Or.inl (by simp [stepVideo, hs])
      | cons fn t3 =>
        cases t3 with
        | cons d t4 => exact Or.inl (by simp [stepVideo, hs])
        | nil =>
          by_cases hfn : fn = []
          · exact Or.inl (by simp [stepVideo, hs, hfn])
          · cases hsig : sign k with
            | none => exact Or.inl (by simp [stepVideo, hs, hfn, hsig])
            | some url =>
              refine Or.inr ⟨c, g, fn, url, rfl, hfn, rfl, ?_⟩
              simp only [stepVideo, hs, hsig]
              rw [if_neg hfn]

theorem nodup_keysA_fold (sign : GoStr → Option GoStr) :
    ∀ (keys : List GoStr) (m : List (GoStr × Video)), (keysA m).Nodup →
      (keysA (keys.foldl (stepVideo sign) m)).Nodup := by
  intro keys
  induction keys with
  | nil => intro m h; exact h
  | cons k ks ih =>
    intro m h
    rw [List.foldl_cons]
    refine ih (stepVideo sign m k) ?_
    rcases stepVideo_spec sign m k with he | ⟨c, g, fn, url, _, _, _, he⟩
    · rw [he]; exact h
    · rw [he, keysA_setA]
      cases hl : lookupA m (stripExt fn) with
      | none =>
        have hnm : stripExt fn ∉ keysA m := lookupA_none_iff.mp hl
        simp [List.nodup_append, h, hnm]
      | some w => simpa using h

theorem nameInv_fold (sign : GoStr → Option GoStr) :
    ∀ (keys : List GoStr) (m : List (GoStr × Video)),
      (∀ e ∈ m, (e.2).name = e.1) →
      ∀ e ∈ keys.foldl (stepVideo sign) m, (e.2).name = e.1 := by
  intro keys
  induction keys with
  | nil => intro m h; exact h
  | cons k ks ih =>
    intro m h
    rw [List.foldl_cons]
    refine ih (stepVideo sign m k) ?_
    rcases stepVideo_spec sign m k with he | ⟨c, g, fn, url, _, _, _, he⟩
    · rw [he]; exact h
    · rw [he]
      intro e he'
      rcases mem_setA he' with rfl | hmem
      · show (updVideo (lookupA m (stripExt fn)) c g fn k url).name = stripExt fn
        cases hl : lookupA m (stripExt fn) with
        | none =>
          unfold updVideo
          by_cases h1 : isVideoName fn = true <;> by_cases h2 : isImageName fn = true <;>
            simp [h1, h2]
        | some v =>
          have hv : v.name = stripExt fn := h (stripExt fn, v) (lookupA_mem hl)
          unfold updVideo
          by_cases h1 : isVideoName fn = true <;> by_cases h2 : isImageName fn = true <;>
            simp [h1, h2, hv]
      · exact h e hmem

theorem entries_eq_of_fst {m : List (GoStr × α)} (hnd : (keysA m).Nodup)
    {e1 e2 : GoStr × α} (h1 : e1 ∈ m) (h2 : e2 ∈ m) (hf : e1.1 = e2.1) : e1 = e2 := by
  induction m with
  | nil => exact absurd h1 (List.not_mem_nil e1)
  | cons p t ih =>
    have hnd' : (keysA t).Nodup := (List.nodup_cons.mp hnd).2
    have hp : p.1 ∉ keysA t := by
      have := (List.nodup_cons.mp hnd).1
      simpa [keysA] using this
    rcases List.mem_cons.mp h1 with rfl | h1' <;> rcases List.mem_cons.mp h2 with rfl | h2'
    · rfl
    · exact absurd (hf ▸ List.mem_map_of_mem Prod.fst h2') hp
    · exact absurd (hf ▸ List.mem_map_of_mem Prod.fst h1') (fun hh => hp hh)
    · exact ih hnd' h1' h2'

/-- A default record used only to express lookups as total functions. -/
def dfltVideo : Video := { name := [], category := [], gallery := [] }

theorem valuesA_eq_map {m : List (GoStr × α)} (d : α) (hnd : (keysA m).Nodup) :
    valuesA m = (keysA m).map (fun b => (lookupA m b).getD d) := by
  induction m with
  | nil => rfl
  | cons p t ih =>
    obtain ⟨p1, p2⟩ := p
    have hnd' : (keysA t).Nodup := (List.nodup_cons.mp hnd).2
    have hp : p1 ∉ keysA t := by
      have := (List.nodup_cons.mp hnd).1
      simpa [keysA] using this
    show p2 :: valuesA t = (fun b => (lookupA ((p1, p2) :: t) b).getD d) p1 ::
      (keysA t).map (fun b => (lookupA ((p1, p2) :: t) b).getD d)
    simp only []
    rw [show lookupA ((p1, p2) :: t) p1 = some p2 from by simp [lookupA]]
    rw [List.map_congr_left (fun b hb => by
      rw [show lookupA ((p1, p2) :: t) b = lookupA t b from by
        have hne : ¬ p1 = b := fun h => hp (h ▸ hb)
        simp [lookupA, hne]])]
    rw [ih hnd']
    rfl

theorem insertBy_sorted {c : α → α → Bool} {S : List α}
    (htot : ∀ a ∈ S, ∀ b ∈ S, a ≠ b → c a b = true ∨ c b a = true)
    (htrans : ∀ a ∈ S, ∀ b ∈ S, ∀ d ∈ S, c a b = true → c b d = true → c a d = true)
    (x : α) (l : List α) :
    x ∈ S → (∀ y ∈ l, y ∈ S) → x ∉ l →
      l.Pairwise (fun a b => c a b = true) →
      (insertBy c x l).Pairwise (fun a b => c a b = true) := by
  induction l with
  | nil =>
    intro _ _ _ _
    simp [insertBy]
  | cons y ys ih =>
    intro hxS hlS hxl hsort
    have hyS := hlS y (List.mem_cons_self y ys)
    have hysS : ∀ z ∈ ys, z ∈ S := fun z hz => hlS z (List.mem_cons_of_mem _ hz)
    have hxy : x ≠ y := fun h => hxl (h ▸ List.mem_cons_self y ys)
    obtain ⟨hy_ys, hsort'⟩ := List.pairwise_cons.mp hsort
    by_cases hcxy : c x y = true
    · simp only [insertBy, hcxy, if_pos]
      refine List.pairwise_cons.mpr ⟨?_, hsort⟩
      intro z hz
      rcases List.mem_cons.mp hz with rfl | hz'
      · exact hcxy
      · exact htrans x hxS y hyS z (hysS z hz') hcxy (hy_ys z hz')
    · have hcyx : c y x = true := by
        rcases htot x hxS y hyS hxy with h | h
        · exact absurd h hcxy
        · exact h
      simp only [insertBy]
      rw [if_neg hcxy]
      refine List.pairwise_cons.mpr ⟨?_, ?_⟩
      · intro z hz
        have hz2 : z ∈ x :: ys := (insertBy_perm c x ys).mem_iff.mp hz
        rcases List.mem_cons.mp hz2 with rfl | hz'
        · exact hcyx
        · exact hy_ys z hz'
      · exact ih hxS hysS (fun h => hxl (List.mem_cons_of_mem _ h)) hsort'

theorem sortBy_sorted {c : α → α → Bool} {S : List α}
    (htot : ∀ a ∈ S, ∀ b ∈ S, a ≠ b → c a b = true ∨ c b a = true)
    (htrans : ∀ a ∈ S, ∀ b ∈ S, ∀ d ∈ S, c a b = true → c b d = true → c a d = true) :
    ∀ l, (∀ y ∈ l, y ∈ S) → l.Nodup →
      (sortBy c l).Pairwise (fun a b => c a b = true) := by
  intro l
  induction l with
  | nil => intro _ _; simp [sortBy]
  | cons x xs ih =>
    intro hlS hnd
    obtain ⟨hx_xs, hnd'⟩ := List.nodup_cons.mp hnd
    refine insertBy_sorted htot htrans x (sortBy c xs)
      (hlS x (List.mem_cons_self x xs))
      (fun y hy => hlS y (List.mem_cons_of_mem _ ((sortBy_perm c xs).mem_iff.mp hy)))
      (fun h => hx_xs ((sortBy_perm c xs).mem_iff.mp h))
      (ih (fun y hy => hlS y (List.mem_cons_of_mem _ hy)) hnd')

theorem sorted_perm_eq {c : α → α → Bool} {S : List α}
    (hasym : ∀ a ∈ S, ∀ b ∈ S, ¬(c a b = true ∧ c b a = true)) :
    ∀ (l1 l2 : List α), (∀ y ∈ l1, y ∈ S) → l1.Perm l2 →
      l1.Pairwise (fun a b => c a b = true) →
      l2.Pairwise (fun a b => c a b = true) → l1 = l2 := by
  intro l1
  induction l1 with
  | nil =>
    intro l2 _ hperm _ _
    exact hperm.nil_eq
  | cons a t1 ih =>
    intro l2 hS hperm hp1 hp2
    cases l2 with
    | nil => simpa using hperm.eq_nil
    | cons b t2 =>
      obtain ⟨ha_t1, hp1b⟩ := List.pairwise_cons.mp hp1
      obtain ⟨hb_t2, hp2b⟩ := List.pairwise_cons.mp hp2
      by_cases hab : a = b
      · subst hab
        rw [ih t2 (fun y hy => hS y (List.mem_cons_of_mem _ hy)) hperm.cons_inv hp1b hp2b]
      · have haS : a ∈ S := hS a (List.mem_cons_self a t1)
        have hbS : b ∈ S := hS b (hperm.mem_iff.mpr (List.mem_cons_self b t2))
        have hamem : a ∈ t2 := by
          rcases List.mem_cons.mp (hperm.mem_iff.mp (List.mem_cons_self a t1)) with h | h
          · exact absurd h hab
          · exact h
        have hbmem : b ∈ t1 := by
          rcases List.mem_cons.mp (hperm.mem_iff.mpr (List.mem_cons_self b t2)) with h | h
          · exact absurd (Eq.symm h) hab
          · exact h
        exact absurd ⟨ha_t1 b hbmem, hb_t2 a hamem⟩ (hasym a haS b hbS)

theorem valuesA_nodup (nm : α → GoStr) {m : List (GoStr × α)} (hnd : (keysA m).Nodup)
    (hname : ∀ e ∈ m, nm e.2 = e.1) : (valuesA m).Nodup := by
  induction m with
  | nil => simp [valuesA]
  | cons p t ih =>
    rw [keysA_cons] at hnd
    obtain ⟨hp, hnd'⟩ := List.nodup_cons.mp hnd
    refine List.nodup_cons.mpr
      ⟨?_, ih hnd' (fun e he => hname e (List.mem_cons_of_mem _ he))⟩
    intro hvmem
    obtain ⟨e, he, hev⟩ := List.mem_map.mp hvmem
    have h1 : nm e.2 = e.1 := hname e (List.mem_cons_of_mem _ he)
    have h2 : nm p.2 = p.1 := hname p (List.mem_cons_self p t)
    refine hp ?_
    have hpe : p.1 = e.1 := by rw [← h2, ← h1, hev]
    rw [hpe]
    exact List.mem_map_of_mem Prod.fst he

theorem lookupA_isSome_of_mem {m : List (GoStr × α)} {b : GoStr}
    (h : b ∈ keysA m) : ∃ v, lookupA m b = some v := by
  cases hx : lookupA m b with
  | none => exact absurd h (lookupA_none_iff.mp hx)
  | some v => exact ⟨v, rfl⟩

theorem valuesIter_eq_map (d : α) {m : List (GoStr × α)} :
    ∀ {ord : List GoStr}, (∀ b ∈ ord, b ∈ keysA m) →
      valuesIter m ord = ord.map (fun b => (lookupA m b).getD d) := by
  intro ord
  induction ord with
  | nil => intro _; rfl
  | cons a t ih =>
    intro h
    obtain ⟨v, hv⟩ := lookupA_isSome_of_mem (h a (List.mem_cons_self a t))
    have ht := ih (fun b hb => h b (List.mem_cons_of_mem _ hb))
    simp only [valuesIter, List.filterMap_cons, hv, List.map_cons, Option.getD_some]
    exact congrArg _ ht

theorem valuesIter_perm (d : α) {m : List (GoStr × α)} {ord : List GoStr}
    (hnd : (keysA m).Nodup) (hperm : ord.Perm (keysA m)) :
    (valuesIter m ord).Perm (valuesA m) := by
  rw [valuesIter_eq_map d (fun b hb => hperm.subset hb), valuesA_eq_map d hnd]
  exact hperm.map _

theorem galleryFold_inv (secret : GoStr) :
    ∀ (videos : List Video) (m : List (GoStr × Gallery)),
      (keysA m).Nodup → (∀ e ∈ m, (e.2).name = e.1) →
      (keysA (videos.foldl (stepGallery secret) m)).Nodup ∧
        ∀ e ∈ videos.foldl (stepGallery secret) m, (e.2).name = e.1 := by
  intro videos
  induction videos with
  | nil => intro m h1 h2; exact ⟨h1, h2⟩
  | cons v vs ih =>
    intro m h1 h2
    rw [List.foldl_cons]
    cases hl : lookupA m v.gallery with
    | some g =>
      have hstep : stepGallery secret m v =
          setA m v.gallery { g with videos := g.videos ++ [v] } := by
        simp [stepGallery, hl]
      refine ih _ ?_ ?_
      · rw [hstep, keysA_setA, hl]
        simpa using h1
      · rw [hstep]
        intro e he
        rcases mem_setA he with rfl | hmem
        · have hg : g.name = v.gallery := h2 (v.gallery, g) (lookupA_mem hl)
          simpa using hg
        · exact h2 e hmem
    | none =>
      have hstep : stepGallery secret m v =
          setA m v.gallery
            { name := v.gallery, category := v.category,
              stub := galleryStubField v.gallery secret, videos := [v] } := by
        simp [stepGallery, hl]
      refine ih _ ?_ ?_
      · rw [hstep, keysA_setA, hl]
        have hnm : v.gallery ∉ keysA m := lookupA_none_iff.mp hl
        simp [List.nodup_append, h1, hnm]
      · rw [hstep]
        intro e he
        rcases mem_setA he with rfl | hmem
        · rfl
        · exact h2 e hmem

/-- C5 (amended): with Go's randomized map iteration modelled explicitly
(the orders vord1/vord2 and gord1/gord2 range over permutations of the
videos-map and galleries-map key sets), a conflict-free bucket layout
(objCompat) together with naturalLess restricting to a strict total order
both on the resulting video names and on the gallery names makes the video
sequence and the gallery sequence invariant under permutations of the
object enumeration and under the map iteration orders.  The category
sequence carries no such guarantee: GetCategoriesInternal emits it in raw
map iteration order with no sort. -/
theorem getVideos_perm_invariant (sign : GoStr → Option GoStr) (secret : GoStr)
    (keys1 keys2 vord1 vord2 gord1 gord2 : List GoStr) (hperm : keys1.Perm keys2)
    (hcompat : ∀ k1 ∈ keys1, ∀ k2 ∈ keys1, objCompat k1 k2 = true)
    (hvord1 : vord1.Perm (keysA (videosMap sign keys1)))
    (hvord2 : vord2.Perm (keysA (videosMap sign keys2)))
    (htot : ∀ a ∈ valuesA (videosMap sign keys1), ∀ b ∈ valuesA (videosMap sign keys1),
      a ≠ b → videoLess a b = true ∨ videoLess b a = true)
    (hasym : ∀ a ∈ valuesA (videosMap sign keys1), ∀ b ∈ valuesA (videosMap sign keys1),
      ¬(videoLess a b = true ∧ videoLess b a = true))
    (htrans : ∀ a ∈ valuesA (videosMap sign keys1), ∀ b ∈ valuesA (videosMap sign keys1),
      ∀ d ∈ valuesA (videosMap sign keys1),
      videoLess a b = true → videoLess b d = true → videoLess a d = true)
    (hgord1 : gord1.Perm (keysA (galleriesMapOf secret (getVideosIter sign keys1 vord1))))
    (hgord2 : gord2.Perm (keysA (galleriesMapOf secret (getVideosIter sign keys2 vord2))))
    (hgtot : ∀ a ∈ valuesA (galleriesMapOf secret (getVideosIter sign keys1 vord1)),
      ∀ b ∈ valuesA (galleriesMapOf secret (getVideosIter sign keys1 vord1)),
      a ≠ b → galleryLess a b = true ∨ galleryLess b a = true)
    (hgasym : ∀ a ∈ valuesA (galleriesMapOf secret (getVideosIter sign keys1 vord1)),
      ∀ b ∈ valuesA (galleriesMapOf secret (getVideosIter sign keys1 vord1)),
      ¬(galleryLess a b = true ∧ galleryLess b a = true))
    (hgtrans : ∀ a ∈ valuesA (galleriesMapOf secret (getVideosIter sign keys1 vord1)),
      ∀ b ∈ valuesA (galleriesMapOf secret (getVideosIter sign keys1 vord1)),
      ∀ d ∈ valuesA (galleriesMapOf secret (getVideosIter sign keys1 vord1)),
      galleryLess a b = true → galleryLess b d = true → galleryLess a d = true) :
    getVideosIter sign keys1 vord1 = getVideosIter sign keys2 vord2 ∧
      getGalleriesIter sign secret keys1 vord1 gord1 =
        getGalleriesIter sign secret keys2 vord2 gord2 := by
  have hF : buildF sign keys1 = buildF sign keys2 := by
    refine hperm.foldl_eq' ?_ _
    intro x hx y hy z
    by_cases hxy : x = y
    · subst hxy; rfl
    · exact stepF_comm sign x y (hcompat x hx y hy) hxy z
  have hlk : ∀ b, lookupA (videosMap sign keys1) b = lookupA (videosMap sign keys2) b := by
    intro b
    rw [lookup_videosMap, lookup_videosMap, hF]
  have hnd1 : (keysA (videosMap sign keys1)).Nodup :=
    nodup_keysA_fold sign keys1 [] (by simp [keysA])
  have hnd2 : (keysA (videosMap sign keys2)).Nodup :=
    nodup_keysA_fold sign keys2 [] (by simp [keysA])
  have hkmem : ∀ b, b ∈ keysA (videosMap sign keys1) ↔ b ∈ keysA (videosMap sign keys2) := by
    intro b
    rw [← not_iff_not, ← lookupA_none_iff, ← lookupA_none_iff, hlk b]
  have hkperm : (keysA (videosMap sign keys1)).Perm (keysA (videosMap sign keys2)) :=
    (List.perm_ext_iff_of_nodup hnd1 hnd2).mpr hkmem
  have hfun : (fun b => (lookupA (videosMap sign keys1) b).getD dfltVideo) =
      (fun b => (lookupA (videosMap sign keys2) b).getD dfltVideo) :=
    funext fun b => by rw [hlk b]
  have hVperm : (valuesA (videosMap sign keys1)).Perm (valuesA (videosMap sign keys2)) := by
    rw [valuesA_eq_map dfltVideo hnd1, valuesA_eq_map dfltVideo hnd2, ← hfun]
    exact hkperm.map _
  have hname1 : ∀ e ∈ videosMap sign keys1, (e.2).name = e.1 :=
    nameInv_fold sign keys1 [] (by simp)
  have hvnd1 : (valuesA (videosMap sign keys1)).Nodup := valuesA_nodup Video.name hnd1 hname1
  have hI1 : (valuesIter (videosMap sign keys1) vord1).Perm (valuesA (videosMap sign keys1)) :=
    valuesIter_perm dfltVideo hnd1 hvord1
  have hI2 : (valuesIter (videosMap sign keys2) vord2).Perm (valuesA (videosMap sign keys1)) :=
    (valuesIter_perm dfltVideo hnd2 hvord2).trans hVperm.symm
  have hvideos : getVideosIter sign keys1 vord1 = getVideosIter sign keys2 vord2 := by
    unfold getVideosIter
    refine sorted_perm_eq hasym _ _ ?_ ?_ ?_ ?_
    · exact fun y hy => hI1.mem_iff.mp ((sortBy_perm _ _).mem_iff.mp hy)
    · exact (((sortBy_perm _ _).trans hI1).trans hI2.symm).trans (sortBy_perm _ _).symm
    · exact sortBy_sorted htot htrans _ (fun y hy => hI1.mem_iff.mp hy)
        (hI1.nodup_iff.mpr hvnd1)
    · exact sortBy_sorted htot htrans _ (fun y hy => hI2.mem_iff.mp hy)
        (hI2.nodup_iff.mpr hvnd1)
  refine ⟨hvideos, ?_⟩
  unfold getGalleriesIter
  rw [show getVideosIter sign keys2 vord2 = getVideosIter sign keys1 vord1
    from hvideos.symm] at hgord2 ⊢
  obtain ⟨hgnd, hgname⟩ := galleryFold_inv secret (getVideosIter sign keys1 vord1) []
    (by simp [keysA]) (by simp)
  have hgvnd : (valuesA (galleriesMapOf secret (getVideosIter sign keys1 vord1))).Nodup :=
    valuesA_nodup Gallery.name hgnd hgname
  have hJ1 : (valuesIter (galleriesMapOf secret (getVideosIter sign keys1 vord1)) gord1).Perm
      (valuesA (galleriesMapOf secret (getVideosIter sign keys1 vord1))) :=
    valuesIter_perm dfltGallery hgnd hgord1
  have hJ2 : (valuesIter (galleriesMapOf secret (getVideosIter sign keys1 vord1)) gord2).Perm
      (valuesA (galleriesMapOf secret (getVideosIter sign keys1 vord1))) :=
    valuesIter_perm dfltGallery hgnd hgord2
  refine sorted_perm_eq hgasym _ _ ?_ ?_ ?_ ?_
  · exact fun y hy => hJ1.mem_iff.mp ((sortBy_perm _ _).mem_iff.mp hy)
  · exact (((sortBy_perm _ _).trans hJ1).trans hJ2.symm).trans (sortBy_perm _ _).symm
  · exact sortBy_sorted hgtot hgtrans _ (fun y hy => hJ1.mem_iff.mp hy)
      (hJ1.nodup_iff.mpr hgvnd)
  · exact sortBy_sorted hgtot hgtrans _ (fun y hy => hJ2.mem_iff.mp hy)
      (hJ2.nodup_iff.mpr hgvnd)

/-- C5 witness: the two-object Die Hard bucket, built in both enumeration
orders with the concrete map iteration orders that its key sets admit,
yields the same video sequence and the same gallery sequence. -/
theorem getVideos_perm_invariant_witness :
    getVideosIter csign
        [gs ("Movies/Action/Die Hard.mp4"), gs ("Movies/Action/Die Hard.jpg")]
        [gs ("Die Hard")] =
      getVideosIter csign
        [gs ("Movies/Action/Die Hard.jpg"), gs ("Movies/Action/Die Hard.mp4")]
        [gs ("Die Hard")] ∧
    getGalleriesIter csign (gs ("s"))
        [gs ("Movies/Action/Die Hard.mp4"), gs ("Movies/Action/Die Hard.jpg")]
        [gs ("Die Hard")] [gs ("Action")] =
      getGalleriesIter csign (gs ("s"))
        [gs ("Movies/Action/Die Hard.jpg"), gs ("Movies/Action/Die Hard.mp4")]
        [gs ("Die Hard")] [gs ("Action")] :=
  getVideos_perm_invariant csign (gs ("s"))
    [gs ("Movies/Action/Die Hard.mp4"), gs ("Movies/Action/Die Hard.jpg")]
    [gs ("Movies/Action/Die Hard.jpg"), gs ("Movies/Action/Die Hard.mp4")]
    [gs ("Die Hard")] [gs ("Die Hard")] [gs ("Action")] [gs ("Action")]
    (List.Perm.swap (gs ("Movies/Action/Die Hard.jpg")) (gs ("Movies/Action/Die Hard.mp4")) [])
    (by decide)
    (by rw [show keysA (videosMap csign
        [gs ("Movies/Action/Die Hard.mp4"), gs ("Movies/Action/Die Hard.jpg")]) =
        [gs ("Die Hard")] from by decide])
    (by rw [show keysA (videosMap csign
        [gs ("Movies/Action/Die Hard.jpg"), gs ("Movies/Action/Die Hard.mp4")]) =
        [gs ("Die Hard")] from by decide])
    (by decide) (by decide) (by decide)
    (by rw [show keysA (galleriesMapOf (gs ("s")) (getVideosIter csign
        [gs ("Movies/Action/Die Hard.mp4"), gs ("Movies/Action/Die Hard.jpg")]
        [gs ("Die Hard")])) = [gs ("Action")] from by decide])
    (by rw [show keysA (galleriesMapOf (gs ("s")) (getVideosIter csign
        [gs ("Movies/Action/Die Hard.jpg"), gs ("Movies/Action/Die Hard.mp4")]
        [gs ("Die Hard")])) = [gs ("Action")] from by decide])
    (by decide) (by decide) (by decide)

/-- C5 counterexample: two video objects sharing the base name x but living
in different categories and galleries make the video sequence depend on the
enumeration order; and even on a conflict-free two-category layout, two
iteration orders of the same category-map key set give different category
sequences, since GetCategoriesInternal never sorts them. -/
theorem buildOrder_dependent :
    (([gs ("A/G/x.mp4"), gs ("B/H/x.avi")] : List GoStr).Perm
        [gs ("B/H/x.avi"), gs ("A/G/x.mp4")] ∧
      getVideosInternal csign [gs ("A/G/x.mp4"), gs ("B/H/x.avi")] ≠
        getVideosInternal csign [gs ("B/H/x.avi"), gs ("A/G/x.mp4")]) ∧
    (([gs ("A"), gs ("B")] : List GoStr).Perm [gs ("B"), gs ("A")] ∧
      keysA (categoriesMapOf (getGalleriesIter csign (gs ("s"))
          [gs ("A/G/x.mp4"), gs ("B/H/y.mp4")] [gs ("x"), gs ("y")]
          [gs ("G"), gs ("H")])) = [gs ("A"), gs ("B")] ∧
      getCategoriesIter csign (gs ("s")) [gs ("A/G/x.mp4"), gs ("B/H/y.mp4")]
          [gs ("x"), gs ("y")] [gs ("G"), gs ("H")] [gs ("A"), gs ("B")] ≠
        getCategoriesIter csign (gs ("s")) [gs ("A/G/x.mp4"), gs ("B/H/y.mp4")]
          [gs ("x"), gs ("y")] [gs ("G"), gs ("H")] [gs ("B"), gs ("A")]) :=
  ⟨⟨List.Perm.swap (gs ("B/H/x.avi")) (gs ("A/G/x.mp4")) [], by decide⟩,
   List.Perm.swap (gs ("B")) (gs ("A")) [], by decide, by decide⟩
